import Mathlib

/-!
Verification of the rotary-position-embedding kernel in `src/rope.py`.

The file shallowly embeds the two functions of the repository,
`reshape_for_broadcast` and `apply_rotary_emb`, over a model of
contiguous row-major tensors (a shape, a dtype tag and a flat list of
real numbers).  Floating-point values are modelled by real numbers; the
trigonometric, power and division primitives are passed to the kernel as
explicit function parameters so that every definition stays computable,
and the claim theorems instantiate them with `Real.cos`, `Real.sin`,
`Real.rpow` and real division.
-/

/-- Element dtypes of the tensor library that occur in this code path. -/
inductive DType where
  | bool
  | int32
  | int64
  | float16
  | float32
  | float64
deriving DecidableEq

/-- Numeric promotion rank of a dtype (larger wins on mixed arithmetic). -/
def DType.rank : DType → ℕ
  | .bool => 0
  | .int32 => 1
  | .int64 => 2
  | .float16 => 3
  | .float32 => 4
  | .float64 => 5

/-- Dtype of the result of mixed-dtype elementwise arithmetic. -/
def DType.promote (a b : DType) : DType := if a.rank ≤ b.rank then b else a

/-- Dtype produced by a floating-point elementwise function such as
`torch.sin`: floating dtypes are kept, integer dtypes become float32. -/
def DType.floated (a : DType) : DType := if 3 ≤ a.rank then a else .float32

/-- A contiguous row-major tensor: shape, dtype tag and flat data. -/
structure Tensor where
  shape : List ℕ
  dtype : DType
  data : List ℝ

/-- Well-formedness: the flat data has exactly `shape.prod` elements. -/
def Tensor.wf (t : Tensor) : Prop := t.data.length = t.shape.prod

instance (t : Tensor) : Decidable t.wf := by unfold Tensor.wf; infer_instance

/-- Row-major flat offset of a multi-index. -/
def flatIdx : List ℕ → List ℕ → ℕ
  | _ :: ns, i :: is => i * ns.prod + flatIdx ns is
  | _, _ => 0

/-- All multi-indices of a shape, in row-major order. -/
def allIdx : List ℕ → List (List ℕ)
  | [] => [[]]
  | n :: ns => (List.range n).flatMap (fun i => (allIdx ns).map (i :: ·))

/-- A multi-index is in range for a shape. -/
def validIdx (sh idx : List ℕ) : Prop := List.Forall₂ (fun i n => i < n) idx sh

instance (sh idx : List ℕ) : Decidable (validIdx sh idx) := by
  unfold validIdx; infer_instance

/-- Element of a tensor at a multi-index (0 out of range). -/
def Tensor.entry (t : Tensor) (idx : List ℕ) : ℝ := t.data.getD (flatIdx t.shape idx) 0

/-- Elements at even flat offsets: the first components of consecutive pairs. -/
def deinterleaveL : List ℝ → List ℝ
  | a :: _ :: rest => a :: deinterleaveL rest
  | [a] => [a]
  | [] => []

/-- Elements at odd flat offsets: the second components of consecutive pairs. -/
def deinterleaveR : List ℝ → List ℝ
  | _ :: b :: rest => b :: deinterleaveR rest
  | [_] => []
  | [] => []

/-- Interleaving of two equally long lists, pairwise. -/
def interleave : List ℝ → List ℝ → List ℝ
  | a :: as, b :: bs => a :: b :: interleave as bs
  | _, _ => []

/-- Shape inference of `torch.Tensor.reshape`: `none` models a `-1` entry,
which is inferred from the element count when the other entries have a
positive product dividing it. -/
def inferReshape (numel : ℕ) (ns : List (Option ℕ)) : Option (List ℕ) :=
  if ns.count none = 0 then
    if (ns.map (fun z => z.getD 0)).prod = numel then some (ns.map (fun z => z.getD 0))
    else none
  else if ns.count none = 1 then
    if 0 < (ns.filterMap id).prod ∧ (ns.filterMap id).prod ∣ numel then
      some (ns.map (fun z => z.getD (numel / (ns.filterMap id).prod)))
    else none
  else none

/-- Mirrors `t.reshape(ns)` on a contiguous tensor: the flat data is kept,
the shape is replaced after inference; a size mismatch is an error. -/
def Tensor.reshape (t : Tensor) (ns : List (Option ℕ)) : Option Tensor :=
  match inferReshape t.shape.prod ns with
  | some sh => some ⟨sh, t.dtype, t.data⟩
  | none => none

/-- Mirrors `t.float()`: cast to float32, values unchanged in this model. -/
def Tensor.float (t : Tensor) : Tensor := ⟨t.shape, .float32, t.data⟩

/-- Mirrors `t.unbind(-1)` on a tensor whose last dimension is 2: the two
slices select the even-offset and odd-offset elements of the flat data. -/
def Tensor.unbindLast2 (t : Tensor) : Tensor × Tensor :=
  (⟨t.shape.dropLast, t.dtype, deinterleaveL t.data⟩,
   ⟨t.shape.dropLast, t.dtype, deinterleaveR t.data⟩)

/-- Broadcast of a single dimension pair: equal, or one of them is 1. -/
def bdim (a b : ℕ) : Option ℕ :=
  if a = b then some a else if a = 1 then some b else if b = 1 then some a else none

/-- Broadcast of two equal-rank shapes, dimension by dimension. -/
def bcastShape : List ℕ → List ℕ → Option (List ℕ)
  | [], [] => some []
  | a :: as, b :: bs =>
      match bdim a b, bcastShape as bs with
      | some c, some cs => some (c :: cs)
      | _, _ => none
  | _, _ => none

/-- Left-padding of a shape with 1s up to rank `r` (broadcast alignment). -/
def padOnes (r : ℕ) (s : List ℕ) : List ℕ := List.replicate (r - s.length) 1 ++ s

/-- Index adjustment for broadcasting: size-1 dimensions always read offset 0. -/
def adjIdx (sh idx : List ℕ) : List ℕ :=
  List.zipWith (fun n i => if n = 1 then 0 else i) sh idx

/-- Broadcasting elementwise binary operation of the tensor library. -/
def binOp (f : ℝ → ℝ → ℝ) (t u : Tensor) : Option Tensor :=
  let r := max t.shape.length u.shape.length
  let ts := padOnes r t.shape
  let us := padOnes r u.shape
  match bcastShape ts us with
  | some sh =>
      some ⟨sh, t.dtype.promote u.dtype,
        (allIdx sh).map (fun idx =>
          f (t.data.getD (flatIdx ts (adjIdx ts idx)) 0)
            (u.data.getD (flatIdx us (adjIdx us idx)) 0))⟩
  | none => none

/-- Elementwise floating map, such as `torch.sin` and `torch.cos`. -/
def Tensor.tmap (f : ℝ → ℝ) (t : Tensor) : Tensor :=
  ⟨t.shape, t.dtype.floated, t.data.map f⟩

/-- Mirrors `torch.stack([a, b], dim=-1)`. -/
def stackLast (a b : Tensor) : Option Tensor :=
  if a.shape = b.shape then
    some ⟨a.shape ++ [2], a.dtype.promote b.dtype, interleave a.data b.data⟩
  else none

/-- Mirrors `torch.arange(0, n, 2)` as a list of naturals. -/
def arangeStep2 (n : ℕ) : List ℕ := (List.range ((n + 1) / 2)).map (fun j => 2 * j)

/-- Mirrors line 71 of `src/rope.py`:
the tensor `1.0 / (theta ** (torch.arange(0, head_dim, 2).float() / head_dim))`. -/
def invFreqT (rpow rdiv : ℝ → ℝ → ℝ) (head_dim : ℕ) (theta : ℝ) : Tensor :=
  ⟨[(head_dim + 1) / 2], .float32,
    (arangeStep2 head_dim).map
      (fun v : ℕ => rdiv 1 (rpow theta (rdiv (v : ℝ) (head_dim : ℝ))))⟩

/-- Mirrors line 76 of `src/rope.py`: `torch.arange(seqlen).unsqueeze(1)`. -/
def positionsT (seqlen : ℕ) : Tensor :=
  ⟨[seqlen, 1], .int64, (List.range seqlen).map (Nat.cast : ℕ → ℝ)⟩

/-- Mirrors `t[None, :, None, :]` on a rank-2 tensor (lines 85-86). -/
def expand02 (t : Tensor) : Option Tensor :=
  match t.shape with
  | [a, c] => some ⟨[1, a, 1, c], t.dtype, t.data⟩
  | _ => none

/-- Mirrors the unpacking `_, seqlen, _, _ = query.shape` (line 51). -/
def seqlenOf : List ℕ → Option ℕ
  | [_, s, _, _] => some s
  | _ => none

/-- Mirrors lines 59-60 of `src/rope.py`:
`t.float().reshape(t.shape[:-1] + (-1, 2)).unbind(-1)`. -/
def splitPairs (t : Tensor) : Option (Tensor × Tensor) :=
  (t.float.reshape (t.shape.dropLast.map some ++ [none, some 2])).bind fun tpairs =>
  some tpairs.unbindLast2

/-- Mirrors lines 71-86 of `src/rope.py`: the angle matrix
`torch.arange(seqlen).unsqueeze(1) * inv_freq`, its sine and cosine, and
their reshape to (1, seqlen, 1, head_dim/2); returns (sin, cos). -/
def trigTensors (rcos rsin : ℝ → ℝ) (rpow rdiv : ℝ → ℝ → ℝ)
    (seqlen head_dim : ℕ) (theta : ℝ) : Option (Tensor × Tensor) :=
  let inv_freq := invFreqT rpow rdiv head_dim theta
  (binOp (· * ·) (positionsT seqlen) inv_freq).bind fun angles =>
  (expand02 (angles.tmap rsin)).bind fun sinA =>
  (expand02 (angles.tmap rcos)).bind fun cosA =>
  some (sinA, cosA)

/-- Mirrors lines 91-92 (and 97-98) of `src/rope.py`: the elementwise
rotation `(re*cos - im*sin, re*sin + im*cos)` with broadcasting. -/
def rotateHalves (re im sinA cosA : Tensor) : Option (Tensor × Tensor) :=
  (binOp (· * ·) re cosA).bind fun rc =>
  (binOp (· * ·) im sinA).bind fun is_ =>
  (binOp (· - ·) rc is_).bind fun rotated_real =>
  (binOp (· * ·) re sinA).bind fun rs =>
  (binOp (· * ·) im cosA).bind fun ic =>
  (binOp (· + ·) rs ic).bind fun rotated_imag =>
  some (rotated_real, rotated_imag)

/-- Mirrors lines 104-105 of `src/rope.py`:
`torch.stack([real, imag], dim=-1).reshape(*orig.shape)`. -/
def restack (rotated : Tensor × Tensor) (origShape : List ℕ) : Option Tensor :=
  (stackLast rotated.1 rotated.2).bind fun stk =>
  stk.reshape (origShape.map some)

/-- Shallow embedding of `apply_rotary_emb` from `src/rope.py` (lines 26-108).
The trigonometric, power and division primitives on reals are passed as the
parameters `rcos`, `rsin`, `rpow` and `rdiv`; a tensor-library error at any
step makes the whole call return `none` (no partial result). -/
def apply_rotary_emb (rcos rsin : ℝ → ℝ) (rpow rdiv : ℝ → ℝ → ℝ)
    (query key : Tensor) (head_dim max_seq_len : ℕ) (theta : ℝ) :
    Option (Tensor × Tensor) :=
  (seqlenOf query.shape).bind fun seqlen =>
  (splitPairs query).bind fun qhalves =>
  (splitPairs key).bind fun khalves =>
  (trigTensors rcos rsin rpow rdiv seqlen head_dim theta).bind fun trig =>
  (rotateHalves qhalves.1 qhalves.2 trig.1 trig.2).bind fun qrot =>
  (rotateHalves khalves.1 khalves.2 trig.1 trig.2).bind fun krot =>
  (restack qrot query.shape).bind fun query_out =>
  (restack krot key.shape).bind fun key_out =>
  some (query_out, key_out)

/-- Outcome of a Python call that may raise: an `assert` failure, a
tensor-library runtime error, or a normal return. -/
inductive PyResult (α : Type) where
  | assertError : PyResult α
  | runtimeError : PyResult α
  | ok : α → PyResult α
deriving DecidableEq

/-- Mirrors `t.view(sh)` on a contiguous tensor: the element count must
match exactly, otherwise the tensor library raises a runtime error. -/
def Tensor.view (t : Tensor) (sh : List ℕ) : PyResult Tensor :=
  if sh.prod = t.shape.prod then .ok ⟨sh, t.dtype, t.data⟩ else .runtimeError

/-- Shallow embedding of `reshape_for_broadcast` from `src/rope.py`
(lines 4-24), including the two `assert` statements and the final `view`. -/
def reshape_for_broadcast (freqs_cis x : Tensor) : PyResult Tensor :=
  let ndim := x.shape.length
  if ¬ (0 ≤ 1 ∧ 1 < ndim) then .assertError
  else if ¬ (freqs_cis.shape = [x.shape.getD 1 0, x.shape.getD (ndim - 1) 0]) then .assertError
  else
    let shape := x.shape.enum.map (fun p => if p.1 = 1 ∨ p.1 = ndim - 1 then p.2 else 1)
    freqs_cis.view shape

/-- A synthetic query/key tensor of shape (1, S, 1, v.length) that carries the
same vector `v` at every sequence position. -/
def constRows (S : ℕ) (v : List ℝ) : Tensor :=
  ⟨[1, S, 1, v.length], .float32, (List.replicate S v).flatten⟩

/-- The 2-D rotation the kernel applies to each (real, imag) pair, read off
lines 91-92 and 97-98 of `src/rope.py`: given the cosine `c` and sine `s` of
the angle, the pair becomes (re*c - im*s, re*s + im*c). -/
def rot2 (c s re im : ℝ) : ℝ × ℝ := (re * c - im * s, re * s + im * c)

/-- Value of `inv_freq[i]` as computed on line 71 of `src/rope.py`. -/
def invFreqVal (rpow rdiv : ℝ → ℝ → ℝ) (head_dim : ℕ) (theta : ℝ) (i : ℕ) : ℝ :=
  rdiv 1 (rpow theta (rdiv ((2 * i : ℕ) : ℝ) (head_dim : ℝ)))

/-- Rotation angle of pair `i` at sequence position `pos` (line 77). -/
def pairAngle (rpow rdiv : ℝ → ℝ → ℝ) (head_dim : ℕ) (theta : ℝ) (pos i : ℕ) : ℝ :=
  (pos : ℝ) * invFreqVal rpow rdiv head_dim theta i

/-- First (real) component of the rotated pair of the input flat data `dat`
at pair-multi-index `idx` of the pair-grid shape `sh4`. -/
def rotR (rcos rsin : ℝ → ℝ) (rpow rdiv : ℝ → ℝ → ℝ) (head_dim : ℕ) (theta : ℝ)
    (dat : List ℝ) (sh4 idx : List ℕ) : ℝ :=
  let a := pairAngle rpow rdiv head_dim theta (idx.getD 1 0) (idx.getD 3 0)
  (rot2 (rcos a) (rsin a) (dat.getD (2 * flatIdx sh4 idx) 0)
    (dat.getD (2 * flatIdx sh4 idx + 1) 0)).1

/-- Second (imaginary) component of the rotated pair, as in `rotR`. -/
def rotI (rcos rsin : ℝ → ℝ) (rpow rdiv : ℝ → ℝ → ℝ) (head_dim : ℕ) (theta : ℝ)
    (dat : List ℝ) (sh4 idx : List ℕ) : ℝ :=
  let a := pairAngle rpow rdiv head_dim theta (idx.getD 1 0) (idx.getD 3 0)
  (rot2 (rcos a) (rsin a) (dat.getD (2 * flatIdx sh4 idx) 0)
    (dat.getD (2 * flatIdx sh4 idx + 1) 0)).2

/-! ### List indexing lemmas -/

theorem getD_append_of_lt {α} (l l' : List α) (n : ℕ) (h : n < l.length) (d : α) :
    (l ++ l').getD n d = l.getD n d := by
  simp [List.getD_eq_getElem?_getD, List.getElem?_append_left h]

theorem getD_append_add {α} (l l' : List α) (n : ℕ) (d : α) :
    (l ++ l').getD (l.length + n) d = l'.getD n d := by
  simp [List.getD_eq_getElem?_getD, List.getElem?_append_right]

theorem getD_map_of_lt {α β} (f : α → β) (l : List α) (n : ℕ) (h : n < l.length)
    (d : β) (d' : α) : (l.map f).getD n d = f (l.getD n d') := by
  simp [List.getD_eq_getElem?_getD, List.getElem?_map, List.getElem?_eq_getElem h,
    List.getD_eq_getElem l d' h]

theorem getD_range_of_lt (n i : ℕ) (h : i < n) (d : ℕ) :
    (List.range n).getD i d = i := by
  simp [List.getD_eq_getElem?_getD, List.getElem?_range h]

theorem flatMap_congrOn {α β} (l : List α) (f g : α → List β)
    (h : ∀ x ∈ l, f x = g x) : l.flatMap f = l.flatMap g := by
  induction l with
  | nil => rfl
  | cons a t ih =>
      simp only [List.flatMap_cons, h a (by simp), ih (fun x hx => h x (by simp [hx]))]

theorem map_congrOn {α β} (l : List α) (f g : α → β)
    (h : ∀ x ∈ l, f x = g x) : l.map f = l.map g := by
  induction l with
  | nil => rfl
  | cons a t ih =>
      simp only [List.map_cons, h a (by simp), ih (fun x hx => h x (by simp [hx]))]

theorem flatMap_getD_uniform {α β} (g : α → List β) (P : ℕ)
    (hP : ∀ x, (g x).length = P) (d : β) (d' : α) :
    ∀ (l : List α) (i q : ℕ), i < l.length → q < P →
      (l.flatMap g).getD (i * P + q) d = (g (l.getD i d')).getD q d := by
  intro l
  induction l with
  | nil => intro i q hi _; simp at hi
  | cons a t ih =>
      intro i q hi hq
      cases i with
      | zero =>
          simp only [List.flatMap_cons, Nat.zero_mul, Nat.zero_add, List.getD_cons_zero]
          exact getD_append_of_lt _ _ q (by rw [hP]; exact hq) d
      | succ i =>
          have harith : (i + 1) * P + q = (g a).length + (i * P + q) := by
            rw [hP]; ring
          simp only [List.flatMap_cons, harith, List.getD_cons_succ]
          rw [getD_append_add]
          exact ih i q (by simpa using hi) hq

theorem range_flatMap_mul (n P : ℕ) :
    (List.range n).flatMap (fun i => (List.range P).map (fun j => i * P + j)) =
      List.range (n * P) := by
  induction n with
  | zero => simp
  | succ n ih =>
      rw [List.range_succ, List.flatMap_append, ih, Nat.succ_mul, List.range_add]
      simp

theorem allIdx_map_flatIdx (sh : List ℕ) :
    (allIdx sh).map (flatIdx sh) = List.range sh.prod := by
  induction sh with
  | nil =>
      simp only [allIdx, flatIdx, List.map_cons, List.map_nil, List.prod_nil]
      decide
  | cons n ns ih =>
      simp only [allIdx, List.map_flatMap, List.map_map, List.prod_cons]
      have hinner : ∀ i : ℕ,
          (allIdx ns).map (flatIdx (n :: ns) ∘ (i :: ·)) =
            (List.range ns.prod).map (fun j => i * ns.prod + j) := by
        intro i
        have : flatIdx (n :: ns) ∘ (i :: ·) = (fun j => i * ns.prod + j) ∘ flatIdx ns := by
          funext is
          simp [flatIdx, Function.comp]
        rw [this, ← List.map_map, ih]
      calc (List.range n).flatMap (fun i => (allIdx ns).map (flatIdx (n :: ns) ∘ (i :: ·)))
          = (List.range n).flatMap (fun i => (List.range ns.prod).map (fun j => i * ns.prod + j)) :=
            flatMap_congrOn _ _ _ (fun i _ => hinner i)
        _ = List.range (n * ns.prod) := range_flatMap_mul n ns.prod

theorem allIdx_length (sh : List ℕ) : (allIdx sh).length = sh.prod := by
  have := congrArg List.length (allIdx_map_flatIdx sh)
  simpa using this

theorem flatIdx_lt_prod {sh idx : List ℕ} (h : validIdx sh idx) :
    flatIdx sh idx < sh.prod := by
  induction h with
  | nil => simp [flatIdx]
  | @cons i n is ns hin _ ih =>
      simp only [flatIdx, List.prod_cons]
      calc i * ns.prod + flatIdx ns is < i * ns.prod + ns.prod := by omega
        _ = (i + 1) * ns.prod := by ring
        _ ≤ n * ns.prod := Nat.mul_le_mul_right _ (by omega)

theorem mem_allIdx_validIdx : ∀ {sh idx : List ℕ}, idx ∈ allIdx sh → validIdx sh idx := by
  intro sh
  induction sh with
  | nil => intro idx h; simp [allIdx] at h; subst h; exact List.Forall₂.nil
  | cons n ns ih =>
      intro idx h
      simp only [allIdx, List.mem_flatMap, List.mem_map, List.mem_range] at h
      obtain ⟨i, hi, is, his, rfl⟩ := h
      exact List.Forall₂.cons hi (ih his)

theorem allIdx_getD {sh idx : List ℕ} (h : validIdx sh idx) :
    (allIdx sh).getD (flatIdx sh idx) [] = idx := by
  induction h with
  | nil => simp [allIdx, flatIdx]
  | @cons i n is ns hin htail ih =>
      simp only [allIdx, flatIdx]
      rw [flatMap_getD_uniform (fun i => (allIdx ns).map (i :: ·)) ns.prod
        (fun x => by simp [allIdx_length]) [] 0 (List.range n) i (flatIdx ns is)
        (by simpa using hin) (flatIdx_lt_prod htail)]
      rw [getD_range_of_lt n i hin 0,
        getD_map_of_lt _ _ _ (by rw [allIdx_length]; exact flatIdx_lt_prod htail) [] [], ih]

theorem getD_map_allIdx {β} [Inhabited β] (f : List ℕ → β) {sh idx : List ℕ}
    (h : validIdx sh idx) (d : β) :
    ((allIdx sh).map f).getD (flatIdx sh idx) d = f idx := by
  rw [getD_map_of_lt f _ _ (by rw [allIdx_length]; exact flatIdx_lt_prod h) d [],
    allIdx_getD h]

/-! ### Pair interleaving lemmas -/

theorem list_pair_induction {motive : List ℝ → Prop} (h0 : motive [])
    (h1 : ∀ a, motive [a]) (h2 : ∀ a b rest, motive rest → motive (a :: b :: rest)) :
    ∀ l, motive l
  | [] => h0
  | [a] => h1 a
  | a :: b :: rest => h2 a b rest (list_pair_induction h0 h1 h2 rest)

theorem deinterleaveL_getD (l : List ℝ) :
    ∀ m : ℕ, 2 * m < l.length → (deinterleaveL l).getD m 0 = l.getD (2 * m) 0 := by
  induction l using list_pair_induction with
  | h0 => intro m hm; simp at hm
  | h1 a =>
      intro m hm
      have : m = 0 := by simp at hm; omega
      subst this; rfl
  | h2 a b rest ih =>
      intro m hm
      cases m with
      | zero => rfl
      | succ m =>
          have h2m : 2 * (m + 1) = 2 * m + 1 + 1 := by ring
          simp only [deinterleaveL, List.getD_cons_succ, h2m]
          exact ih m (by simp at hm; omega)

theorem deinterleaveR_getD (l : List ℝ) :
    ∀ m : ℕ, 2 * m + 1 < l.length → (deinterleaveR l).getD m 0 = l.getD (2 * m + 1) 0 := by
  induction l using list_pair_induction with
  | h0 => intro m hm; simp at hm
  | h1 a => intro m hm; simp at hm
  | h2 a b rest ih =>
      intro m hm
      cases m with
      | zero => rfl
      | succ m =>
          have h2m : 2 * (m + 1) + 1 = 2 * m + 1 + 1 + 1 := by ring
          simp only [deinterleaveR, List.getD_cons_succ, h2m]
          exact ih m (by simp at hm; omega)

theorem interleave_map_map {α} (f g : α → ℝ) :
    ∀ l : List α, interleave (l.map f) (l.map g) = l.flatMap (fun x => [f x, g x]) := by
  intro l
  induction l with
  | nil => rfl
  | cons a t ih => simp only [List.map_cons, List.flatMap_cons, interleave, ih]; rfl

theorem range_pair_flatMap :
    ∀ (n : ℕ) (l : List ℝ), l.length = 2 * n →
      (List.range n).flatMap (fun m => [l.getD (2 * m) 0, l.getD (2 * m + 1) 0]) = l := by
  intro n
  induction n with
  | zero =>
      intro l hl
      have : l = [] := by
        cases l with
        | nil => rfl
        | cons a t => simp at hl
      subst this; rfl
  | succ n ih =>
      intro l hl
      match l, hl with
      | a :: b :: rest, hl =>
          rw [List.range_succ_eq_map]
          simp only [List.flatMap_cons, List.flatMap_map]
          have hcongr : ∀ m ∈ List.range n,
              [(a :: b :: rest).getD (2 * (m + 1)) 0, (a :: b :: rest).getD (2 * (m + 1) + 1) 0]
                = [rest.getD (2 * m) 0, rest.getD (2 * m + 1) 0] := by
            intro m _
            have e1 : 2 * (m + 1) = 2 * m + 1 + 1 := by ring
            have e2 : 2 * (m + 1) + 1 = 2 * m + 1 + 1 + 1 := by ring
            rw [e2, e1]
            simp [List.getD_cons_succ]
          rw [flatMap_congrOn _ _ _ hcongr, ih rest (by simp at hl; omega)]
          rfl

/-! ### Broadcast helper lemmas -/

theorem bdim_self (a : ℕ) : bdim a a = some a := by simp [bdim]

theorem bdim_one_right (a : ℕ) : bdim a 1 = some a := by
  by_cases h : a = 1 <;> simp [bdim, h]

theorem bdim_one_left (b : ℕ) : bdim 1 b = some b := by
  by_cases h : b = 1 <;> simp [bdim, h]

theorem padOnes_self (s : List ℕ) : padOnes s.length s = s := by
  simp [padOnes]

theorem adjIdx_of_validIdx : ∀ {sh idx : List ℕ}, validIdx sh idx → adjIdx sh idx = idx := by
  intro sh idx h
  induction h with
  | nil => rfl
  | @cons i n is ns hin _ ih =>
      simp only [adjIdx, List.zipWith_cons_cons] at *
      rw [ih]
      congr 1
      split <;> omega

theorem validIdx_of_four {b s h p i0 i1 i2 i3 : ℕ}
    (h0 : i0 < b) (h1 : i1 < s) (h2 : i2 < h) (h3 : i3 < p) :
    validIdx [b, s, h, p] [i0, i1, i2, i3] :=
  List.Forall₂.cons h0 (List.Forall₂.cons h1 (List.Forall₂.cons h2
    (List.Forall₂.cons h3 List.Forall₂.nil)))

theorem validIdx_four_elim {b s h p : ℕ} {idx : List ℕ}
    (hv : validIdx [b, s, h, p] idx) :
    ∃ i0 i1 i2 i3, idx = [i0, i1, i2, i3] ∧ i0 < b ∧ i1 < s ∧ i2 < h ∧ i3 < p := by
  rcases hv with _ | ⟨h0, hv⟩
  rename_i i0 is
  rcases hv with _ | ⟨h1, hv⟩
  rename_i i1 is
  rcases hv with _ | ⟨h2, hv⟩
  rename_i i2 is
  rcases hv with _ | ⟨h3, hv⟩
  rename_i i3 is
  rcases hv
  exact ⟨i0, i1, i2, i3, rfl, h0, h1, h2, h3⟩

/-! ### Step lemmas: reshape -/

theorem reshape_eq_of_infer (t : Tensor) (ns : List (Option ℕ)) (sh : List ℕ)
    (h : inferReshape t.shape.prod ns = some sh) :
    t.reshape ns = some ⟨sh, t.dtype, t.data⟩ := by
  unfold Tensor.reshape
  rw [h]

theorem reshape_none_of_infer (t : Tensor) (ns : List (Option ℕ))
    (h : inferReshape t.shape.prod ns = none) :
    t.reshape ns = none := by
  unfold Tensor.reshape
  rw [h]

theorem inferReshape_pairs (numel b s h p : ℕ) (hb : 0 < b) (hs : 0 < s) (hh : 0 < h)
    (hnum : numel = b * s * h * 2 * p) :
    inferReshape numel [some b, some s, some h, none, some 2] = some [b, s, h, p, 2] := by
  have hcount : ([some b, some s, some h, none, some 2] : List (Option ℕ)).count none = 1 := rfl
  have hfm : ([some b, some s, some h, none, some 2] : List (Option ℕ)).filterMap id
      = [b, s, h, 2] := rfl
  have hppos : 0 < ([b, s, h, 2] : List ℕ).prod := by
    simp only [List.prod_cons, List.prod_nil]
    exact Nat.mul_pos hb (Nat.mul_pos hs (Nat.mul_pos hh (by norm_num)))
  have hkey : numel = ([b, s, h, 2] : List ℕ).prod * p := by
    simp only [List.prod_cons, List.prod_nil, hnum]; ring
  have hdvd : ([b, s, h, 2] : List ℕ).prod ∣ numel := ⟨p, hkey⟩
  have hdiv : numel / ([b, s, h, 2] : List ℕ).prod = p := by
    rw [hkey, Nat.mul_div_cancel_left p hppos]
  unfold inferReshape
  rw [hcount, hfm]
  rw [if_neg (by norm_num : ¬ (1 = 0))]
  rw [if_pos rfl]
  rw [if_pos ⟨hppos, hdvd⟩]
  simp only [List.map_cons, List.map_nil, Option.getD_some, Option.getD_none, hdiv]

theorem inferReshape_pairs_fail (numel b s h d : ℕ) (hb : 0 < b) (hs : 0 < s) (hh : 0 < h)
    (hd : d % 2 = 1) (hnum : numel = b * s * h * d) :
    inferReshape numel [some b, some s, some h, none, some 2] = none := by
  have hcount : ([some b, some s, some h, none, some 2] : List (Option ℕ)).count none = 1 := rfl
  have hfm : ([some b, some s, some h, none, some 2] : List (Option ℕ)).filterMap id
      = [b, s, h, 2] := rfl
  have hnodvd : ¬ (([b, s, h, 2] : List ℕ).prod ∣ numel) := by
    simp only [List.prod_cons, List.prod_nil]
    intro hdvd
    rcases hdvd with ⟨k, hk⟩
    have hd2 : d = 2 * k := by
      rw [hnum] at hk
      have h1 : b * (s * (h * d)) = b * (s * (h * (2 * k))) := by
        ring_nf; ring_nf at hk; linarith
      have h2 : s * (h * d) = s * (h * (2 * k)) := Nat.eq_of_mul_eq_mul_left hb h1
      have h3 : h * d = h * (2 * k) := Nat.eq_of_mul_eq_mul_left hs h2
      exact Nat.eq_of_mul_eq_mul_left hh h3
    omega
  unfold inferReshape
  rw [hcount, hfm]
  rw [if_neg (by norm_num : ¬ (1 = 0))]
  rw [if_pos rfl]
  rw [if_neg (fun hc => hnodvd hc.2)]

theorem inferReshape_exact (numel : ℕ) (l : List ℕ) (h : l.prod = numel) :
    inferReshape numel (l.map some) = some l := by
  have hcount : (l.map some).count none = 0 := by
    rw [List.count_eq_zero]
    simp
  have hmm : ∀ m : List ℕ, (m.map some).map (fun z => z.getD 0) = m := by
    intro m
    induction m with
    | nil => rfl
    | cons a t ih => simp only [List.map_cons, Option.getD_some, ih]
  unfold inferReshape
  rw [hcount, if_pos rfl, hmm l, if_pos h]

/-! ### Step lemmas: splitPairs -/

theorem splitPairs_eq (t : Tensor) (b s h p : ℕ) (ht : t.shape = [b, s, h, 2 * p])
    (hb : 0 < b) (hs : 0 < s) (hh : 0 < h) :
    splitPairs t = some
      (⟨[b, s, h, p], .float32, deinterleaveL t.data⟩,
       ⟨[b, s, h, p], .float32, deinterleaveR t.data⟩) := by
  unfold splitPairs
  have hfl : t.float.shape = t.shape := rfl
  have hargs : t.shape.dropLast.map some ++ [none, some 2]
      = [some b, some s, some h, none, some 2] := by rw [ht]; rfl
  have hinf : inferReshape t.float.shape.prod [some b, some s, some h, none, some 2]
      = some [b, s, h, p, 2] := by
    apply inferReshape_pairs _ b s h p hb hs hh
    rw [hfl, ht]
    simp only [List.prod_cons, List.prod_nil]
    ring
  rw [hargs, reshape_eq_of_infer _ _ _ hinf]
  rfl

theorem splitPairs_fail (t : Tensor) (b s h d : ℕ) (ht : t.shape = [b, s, h, d])
    (hb : 0 < b) (hs : 0 < s) (hh : 0 < h) (hd : d % 2 = 1) :
    splitPairs t = none := by
  unfold splitPairs
  have hfl : t.float.shape = t.shape := rfl
  have hargs : t.shape.dropLast.map some ++ [none, some 2]
      = [some b, some s, some h, none, some 2] := by rw [ht]; rfl
  have hinf : inferReshape t.float.shape.prod [some b, some s, some h, none, some 2]
      = none := by
    apply inferReshape_pairs_fail _ b s h d hb hs hh hd
    rw [hfl, ht]
    simp only [List.prod_cons, List.prod_nil]
    ring
  rw [hargs, reshape_none_of_infer _ _ hinf]
  rfl

/-! ### Step lemmas: broadcasting binary operations -/

theorem validIdx_two_elim {s p : ℕ} {idx : List ℕ}
    (hv : validIdx [s, p] idx) :
    ∃ i1 i3, idx = [i1, i3] ∧ i1 < s ∧ i3 < p := by
  rcases hv with _ | ⟨h1, hv⟩
  rename_i i1 is
  rcases hv with _ | ⟨h3, hv⟩
  rename_i i3 is
  rcases hv
  exact ⟨i1, i3, rfl, h1, h3⟩

theorem binOp21_eq (f : ℝ → ℝ → ℝ) (t u : Tensor) (s p : ℕ)
    (ht : t.shape = [s, 1]) (hu : u.shape = [p]) :
    binOp f t u = some ⟨[s, p], t.dtype.promote u.dtype,
      (allIdx [s, p]).map (fun idx =>
        f (t.data.getD (flatIdx [s, 1] (adjIdx [s, 1] idx)) 0)
          (u.data.getD (flatIdx [1, p] (adjIdx [1, p] idx)) 0))⟩ := by
  have hpad1 : padOnes (max t.shape.length u.shape.length) t.shape = [s, 1] := by
    rw [ht, hu]; rfl
  have hpad2 : padOnes (max t.shape.length u.shape.length) u.shape = [1, p] := by
    rw [ht, hu]; rfl
  have hb : bcastShape [s, 1] [1, p] = some [s, p] := by
    simp only [bcastShape, bdim_one_right, bdim_one_left]
  simp only [binOp]
  rw [hpad1, hpad2, hb]

theorem binOp44_eq (f : ℝ → ℝ → ℝ) (t u : Tensor) (b s h p : ℕ)
    (ht : t.shape = [b, s, h, p]) (hu : u.shape = [1, s, 1, p]) :
    binOp f t u = some ⟨[b, s, h, p], t.dtype.promote u.dtype,
      (allIdx [b, s, h, p]).map (fun idx =>
        f (t.data.getD (flatIdx [b, s, h, p] (adjIdx [b, s, h, p] idx)) 0)
          (u.data.getD (flatIdx [1, s, 1, p] (adjIdx [1, s, 1, p] idx)) 0))⟩ := by
  have hpad1 : padOnes (max t.shape.length u.shape.length) t.shape = [b, s, h, p] := by
    rw [ht, hu]; rfl
  have hpad2 : padOnes (max t.shape.length u.shape.length) u.shape = [1, s, 1, p] := by
    rw [ht, hu]; rfl
  have hb : bcastShape [b, s, h, p] [1, s, 1, p] = some [b, s, h, p] := by
    simp only [bcastShape, bdim_one_right, bdim_self]
  simp only [binOp]
  rw [hpad1, hpad2, hb]

theorem binOp44_same (f : ℝ → ℝ → ℝ) (t u : Tensor) (b s h p : ℕ)
    (ht : t.shape = [b, s, h, p]) (hu : u.shape = [b, s, h, p]) :
    binOp f t u = some ⟨[b, s, h, p], t.dtype.promote u.dtype,
      (allIdx [b, s, h, p]).map (fun idx =>
        f (t.data.getD (flatIdx [b, s, h, p] (adjIdx [b, s, h, p] idx)) 0)
          (u.data.getD (flatIdx [b, s, h, p] (adjIdx [b, s, h, p] idx)) 0))⟩ := by
  have hpad1 : padOnes (max t.shape.length u.shape.length) t.shape = [b, s, h, p] := by
    rw [ht, hu]; rfl
  have hpad2 : padOnes (max t.shape.length u.shape.length) u.shape = [b, s, h, p] := by
    rw [ht, hu]; rfl
  have hb : bcastShape [b, s, h, p] [b, s, h, p] = some [b, s, h, p] := by
    simp only [bcastShape, bdim_self]
  simp only [binOp]
  rw [hpad1, hpad2, hb]

/-! ### Step lemmas: the angle tensors -/

theorem posInv_entry (rpow rdiv : ℝ → ℝ → ℝ) (s hd : ℕ) (theta : ℝ) {ij : List ℕ}
    (hv : validIdx [s, (hd + 1) / 2] ij) :
    (positionsT s).data.getD (flatIdx [s, 1] (adjIdx [s, 1] ij)) 0 *
      (invFreqT rpow rdiv hd theta).data.getD
        (flatIdx [1, (hd + 1) / 2] (adjIdx [1, (hd + 1) / 2] ij)) 0
      = pairAngle rpow rdiv hd theta (ij.getD 0 0) (ij.getD 1 0) := by
  obtain ⟨i1, i3, rfl, h1, h3⟩ := validIdx_two_elim hv
  have e1 : (if s = 1 then 0 else i1) = i1 := by split <;> omega
  have e2 : (if (hd + 1) / 2 = 1 then 0 else i3) = i3 := by split <;> omega
  have hadj1 : adjIdx [s, 1] [i1, i3] = [i1, 0] := by
    simp only [adjIdx, List.zipWith_cons_cons, List.zipWith_nil_right, e1, if_pos rfl,
      if_true]
  have hadj2 : adjIdx [1, (hd + 1) / 2] [i1, i3] = [0, i3] := by
    simp only [adjIdx, List.zipWith_cons_cons, List.zipWith_nil_right, e2, if_pos rfl,
      if_true]
  have hflat1 : flatIdx [s, 1] [i1, 0] = i1 := by
    simp [flatIdx]
  have hflat2 : flatIdx [1, (hd + 1) / 2] [0, i3] = i3 := by
    simp [flatIdx]
  rw [hadj1, hadj2, hflat1, hflat2]
  have hpos0 : ((List.range s).map (Nat.cast : ℕ → ℝ)).getD i1 0 = (i1 : ℝ) := by
    rw [getD_map_of_lt (Nat.cast : ℕ → ℝ) (List.range s) i1 (by simpa using h1) 0 0,
      getD_range_of_lt s i1 h1 0]
  have hpos : (positionsT s).data.getD i1 0 = (i1 : ℝ) := hpos0
  have harange : (arangeStep2 hd).getD i3 0 = 2 * i3 := by
    unfold arangeStep2
    rw [getD_map_of_lt (fun j => 2 * j) (List.range ((hd + 1) / 2)) i3
      (by simpa using h3) 0 0, getD_range_of_lt _ i3 h3 0]
  have hinv0 : ((arangeStep2 hd).map
      (fun v : ℕ => rdiv 1 (rpow theta (rdiv (v : ℝ) (hd : ℝ))))).getD i3 0
      = invFreqVal rpow rdiv hd theta i3 := by
    rw [getD_map_of_lt (fun v : ℕ => rdiv 1 (rpow theta (rdiv (v : ℝ) (hd : ℝ))))
      (arangeStep2 hd) i3 (by simpa [arangeStep2] using h3) 0 0, harange]
    rfl
  have hinv : (invFreqT rpow rdiv hd theta).data.getD i3 0
      = invFreqVal rpow rdiv hd theta i3 := hinv0
  rw [hpos, hinv]
  rfl

theorem trigTensors_eq (rcos rsin : ℝ → ℝ) (rpow rdiv : ℝ → ℝ → ℝ) (s hd : ℕ) (theta : ℝ) :
    trigTensors rcos rsin rpow rdiv s hd theta = some
      (⟨[1, s, 1, (hd + 1) / 2], .float32, (allIdx [s, (hd + 1) / 2]).map
          (fun ij => rsin (pairAngle rpow rdiv hd theta (ij.getD 0 0) (ij.getD 1 0)))⟩,
       ⟨[1, s, 1, (hd + 1) / 2], .float32, (allIdx [s, (hd + 1) / 2]).map
          (fun ij => rcos (pairAngle rpow rdiv hd theta (ij.getD 0 0) (ij.getD 1 0)))⟩) := by
  have hmap : ∀ g : ℝ → ℝ,
      ((allIdx [s, (hd + 1) / 2]).map (fun idx =>
        (positionsT s).data.getD (flatIdx [s, 1] (adjIdx [s, 1] idx)) 0 *
          (invFreqT rpow rdiv hd theta).data.getD
            (flatIdx [1, (hd + 1) / 2] (adjIdx [1, (hd + 1) / 2] idx)) 0)).map g
      = (allIdx [s, (hd + 1) / 2]).map
          (fun ij => g (pairAngle rpow rdiv hd theta (ij.getD 0 0) (ij.getD 1 0))) := by
    intro g
    rw [List.map_map]
    exact map_congrOn _ _ _ (fun ij hij => by
      simp only [Function.comp_apply]
      rw [posInv_entry rpow rdiv s hd theta (mem_allIdx_validIdx hij)])
  have h1 := binOp21_eq (· * ·) (positionsT s) (invFreqT rpow rdiv hd theta) s
    ((hd + 1) / 2) rfl rfl
  simp only [trigTensors, h1, Option.some_bind, Tensor.tmap, expand02, Option.some_bind]
  rw [hmap rsin, hmap rcos]
  rfl

/-! ### Step lemmas: rotation of the pair halves -/

theorem validIdx_of_two {s p i1 i3 : ℕ} (h1 : i1 < s) (h3 : i3 < p) :
    validIdx [s, p] [i1, i3] :=
  List.Forall₂.cons h1 (List.Forall₂.cons h3 List.Forall₂.nil)

theorem sinEntry_at (sf : List ℕ → ℝ) (b s h p : ℕ) {idx : List ℕ}
    (hv : validIdx [b, s, h, p] idx) :
    ((allIdx [s, p]).map sf).getD (flatIdx [1, s, 1, p] (adjIdx [1, s, 1, p] idx)) 0
      = sf [idx.getD 1 0, idx.getD 3 0] := by
  obtain ⟨i0, i1, i2, i3, rfl, h0, h1, h2, h3⟩ := validIdx_four_elim hv
  have e1 : (if s = 1 then 0 else i1) = i1 := by split <;> omega
  have e3 : (if p = 1 then 0 else i3) = i3 := by split <;> omega
  have hadj : adjIdx [1, s, 1, p] [i0, i1, i2, i3] = [0, i1, 0, i3] := by
    simp only [adjIdx, List.zipWith_cons_cons, List.zipWith_nil_right, e1, e3,
      if_pos rfl, if_true]
  have hflat : flatIdx [1, s, 1, p] [0, i1, 0, i3] = flatIdx [s, p] [i1, i3] := by
    simp [flatIdx]
  rw [hadj, hflat, getD_map_allIdx sf (validIdx_of_two h1 h3) 0]
  rfl

theorem mulBcast_eq (dt2 : DType) (d4 : List ℝ) (gf : List ℕ → ℝ) (b s h p : ℕ) :
    binOp (· * ·) ⟨[b, s, h, p], .float32, d4⟩ ⟨[1, s, 1, p], dt2, (allIdx [s, p]).map gf⟩
      = some ⟨[b, s, h, p], DType.float32.promote dt2, (allIdx [b, s, h, p]).map (fun idx =>
          d4.getD (flatIdx [b, s, h, p] idx) 0 * gf [idx.getD 1 0, idx.getD 3 0])⟩ := by
  rw [binOp44_eq (· * ·) ⟨[b, s, h, p], .float32, d4⟩
    ⟨[1, s, 1, p], dt2, (allIdx [s, p]).map gf⟩ b s h p rfl rfl]
  refine congrArg some (congrArg (Tensor.mk [b, s, h, p] (DType.float32.promote dt2)) ?_)
  refine map_congrOn _ _ _ (fun idx hidx => ?_)
  have hv := mem_allIdx_validIdx hidx
  rw [adjIdx_of_validIdx hv]
  rw [show ((⟨[1, s, 1, p], dt2, (allIdx [s, p]).map gf⟩ : Tensor)).data
    = (allIdx [s, p]).map gf from rfl]
  rw [sinEntry_at gf b s h p hv]

theorem sameOp_eq (f : ℝ → ℝ → ℝ) (dta dtb : DType) (ga gb : List ℕ → ℝ) (b s h p : ℕ) :
    binOp f ⟨[b, s, h, p], dta, (allIdx [b, s, h, p]).map ga⟩
          ⟨[b, s, h, p], dtb, (allIdx [b, s, h, p]).map gb⟩
      = some ⟨[b, s, h, p], dta.promote dtb, (allIdx [b, s, h, p]).map
          (fun idx => f (ga idx) (gb idx))⟩ := by
  rw [binOp44_same f ⟨[b, s, h, p], dta, (allIdx [b, s, h, p]).map ga⟩
    ⟨[b, s, h, p], dtb, (allIdx [b, s, h, p]).map gb⟩ b s h p rfl rfl]
  refine congrArg some (congrArg (Tensor.mk [b, s, h, p] (dta.promote dtb)) ?_)
  refine map_congrOn _ _ _ (fun idx hidx => ?_)
  have hv := mem_allIdx_validIdx hidx
  rw [adjIdx_of_validIdx hv]
  rw [show ((⟨[b, s, h, p], dta, (allIdx [b, s, h, p]).map ga⟩ : Tensor)).data
    = (allIdx [b, s, h, p]).map ga from rfl]
  rw [show ((⟨[b, s, h, p], dtb, (allIdx [b, s, h, p]).map gb⟩ : Tensor)).data
    = (allIdx [b, s, h, p]).map gb from rfl]
  rw [getD_map_allIdx ga hv 0, getD_map_allIdx gb hv 0]

theorem rotateHalves_eq (rd imd : List ℝ) (sf cf : List ℕ → ℝ) (b s h p : ℕ) :
    rotateHalves ⟨[b, s, h, p], .float32, rd⟩ ⟨[b, s, h, p], .float32, imd⟩
        ⟨[1, s, 1, p], .float32, (allIdx [s, p]).map sf⟩
        ⟨[1, s, 1, p], .float32, (allIdx [s, p]).map cf⟩
      = some
        (⟨[b, s, h, p], .float32, (allIdx [b, s, h, p]).map (fun idx =>
            rd.getD (flatIdx [b, s, h, p] idx) 0 * cf [idx.getD 1 0, idx.getD 3 0]
              - imd.getD (flatIdx [b, s, h, p] idx) 0 * sf [idx.getD 1 0, idx.getD 3 0])⟩,
         ⟨[b, s, h, p], .float32, (allIdx [b, s, h, p]).map (fun idx =>
            rd.getD (flatIdx [b, s, h, p] idx) 0 * sf [idx.getD 1 0, idx.getD 3 0]
              + imd.getD (flatIdx [b, s, h, p] idx) 0 * cf [idx.getD 1 0, idx.getD 3 0])⟩) := by
  simp only [rotateHalves, mulBcast_eq .float32 rd cf b s h p,
    mulBcast_eq .float32 imd sf b s h p, mulBcast_eq .float32 rd sf b s h p,
    mulBcast_eq .float32 imd cf b s h p, Option.some_bind]
  rw [sameOp_eq (· - ·) (DType.float32.promote .float32) (DType.float32.promote .float32)
    _ _ b s h p]
  rw [sameOp_eq (· + ·) (DType.float32.promote .float32) (DType.float32.promote .float32)
    _ _ b s h p]
  rfl

/-! ### Step lemmas: stacking and the final reshape -/

theorem stackLast_eq (b s h p : ℕ) (dta dtb : DType) (da db : List ℝ) :
    stackLast ⟨[b, s, h, p], dta, da⟩ ⟨[b, s, h, p], dtb, db⟩
      = some ⟨[b, s, h, p] ++ [2], dta.promote dtb, interleave da db⟩ := by
  unfold stackLast
  rw [if_pos rfl]

theorem restack_eq (b s h p : ℕ) (ga gb : List ℕ → ℝ) (origShape : List ℕ)
    (horig : origShape.prod = ([b, s, h, p] ++ [2] : List ℕ).prod) :
    restack (⟨[b, s, h, p], .float32, (allIdx [b, s, h, p]).map ga⟩,
             ⟨[b, s, h, p], .float32, (allIdx [b, s, h, p]).map gb⟩) origShape
      = some ⟨origShape, .float32,
          (allIdx [b, s, h, p]).flatMap (fun idx => [ga idx, gb idx])⟩ := by
  simp only [restack]
  rw [stackLast_eq b s h p .float32 .float32]
  simp only [Option.some_bind]
  rw [reshape_eq_of_infer _ _ origShape (inferReshape_exact _ origShape horig)]
  rw [interleave_map_map ga gb]
  rfl

/-! ### The master description of `apply_rotary_emb` on well-shaped inputs -/

theorem rotate_pairs_semantic (rcos rsin : ℝ → ℝ) (rpow rdiv : ℝ → ℝ → ℝ)
    (hdim : ℕ) (theta : ℝ) (dat : List ℝ) (b s h p : ℕ)
    (hlen : dat.length = 2 * ([b, s, h, p] : List ℕ).prod) :
    rotateHalves ⟨[b, s, h, p], .float32, deinterleaveL dat⟩
        ⟨[b, s, h, p], .float32, deinterleaveR dat⟩
        ⟨[1, s, 1, p], .float32, (allIdx [s, p]).map
          (fun ij => rsin (pairAngle rpow rdiv hdim theta (ij.getD 0 0) (ij.getD 1 0)))⟩
        ⟨[1, s, 1, p], .float32, (allIdx [s, p]).map
          (fun ij => rcos (pairAngle rpow rdiv hdim theta (ij.getD 0 0) (ij.getD 1 0)))⟩
      = some
        (⟨[b, s, h, p], .float32, (allIdx [b, s, h, p]).map
            (rotR rcos rsin rpow rdiv hdim theta dat [b, s, h, p])⟩,
         ⟨[b, s, h, p], .float32, (allIdx [b, s, h, p]).map
            (rotI rcos rsin rpow rdiv hdim theta dat [b, s, h, p])⟩) := by
  rw [rotateHalves_eq (deinterleaveL dat) (deinterleaveR dat)
    (fun ij => rsin (pairAngle rpow rdiv hdim theta (ij.getD 0 0) (ij.getD 1 0)))
    (fun ij => rcos (pairAngle rpow rdiv hdim theta (ij.getD 0 0) (ij.getD 1 0))) b s h p]
  refine congrArg some (congrArg₂ Prod.mk ?_ ?_)
  · refine congrArg (Tensor.mk [b, s, h, p] .float32) ?_
    refine map_congrOn _ _ _ (fun idx hidx => ?_)
    have hv := mem_allIdx_validIdx hidx
    have hflt := flatIdx_lt_prod hv
    have hL := deinterleaveL_getD dat (flatIdx [b, s, h, p] idx) (by omega)
    have hR := deinterleaveR_getD dat (flatIdx [b, s, h, p] idx) (by omega)
    rw [hL, hR]
    rfl
  · refine congrArg (Tensor.mk [b, s, h, p] .float32) ?_
    refine map_congrOn _ _ _ (fun idx hidx => ?_)
    have hv := mem_allIdx_validIdx hidx
    have hflt := flatIdx_lt_prod hv
    have hL := deinterleaveL_getD dat (flatIdx [b, s, h, p] idx) (by omega)
    have hR := deinterleaveR_getD dat (flatIdx [b, s, h, p] idx) (by omega)
    rw [hL, hR]
    rfl

theorem apply_rotary_emb_spec
    (rcos rsin : ℝ → ℝ) (rpow rdiv : ℝ → ℝ → ℝ) (query key : Tensor)
    (b s hq bk hk p msl : ℕ) (theta : ℝ)
    (hqs : query.shape = [b, s, hq, 2 * p]) (hks : key.shape = [bk, s, hk, 2 * p])
    (hqw : query.wf) (hkw : key.wf)
    (hb : 0 < b) (hs : 0 < s) (hhq : 0 < hq) (hbk : 0 < bk) (hhk : 0 < hk) :
    apply_rotary_emb rcos rsin rpow rdiv query key (2 * p) msl theta = some
      (⟨query.shape, .float32, (allIdx [b, s, hq, p]).flatMap (fun idx =>
          [rotR rcos rsin rpow rdiv (2 * p) theta query.data [b, s, hq, p] idx,
           rotI rcos rsin rpow rdiv (2 * p) theta query.data [b, s, hq, p] idx])⟩,
       ⟨key.shape, .float32, (allIdx [bk, s, hk, p]).flatMap (fun idx =>
          [rotR rcos rsin rpow rdiv (2 * p) theta key.data [bk, s, hk, p] idx,
           rotI rcos rsin rpow rdiv (2 * p) theta key.data [bk, s, hk, p] idx])⟩) := by
  have hseq : seqlenOf query.shape = some s := by rw [hqs]; rfl
  have hsq := splitPairs_eq query b s hq p hqs hb hs hhq
  have hsk := splitPairs_eq key bk s hk p hks hbk hs hhk
  have hp2 : (2 * p + 1) / 2 = p := by omega
  have htrig := trigTensors_eq rcos rsin rpow rdiv s (2 * p) theta
  rw [hp2] at htrig
  have hlenq : query.data.length = 2 * ([b, s, hq, p] : List ℕ).prod := by
    have h1 : query.data.length = ([b, s, hq, 2 * p] : List ℕ).prod := by
      rw [← hqs]; exact hqw
    rw [h1]
    simp only [List.prod_cons, List.prod_nil]
    ring
  have hlenk : key.data.length = 2 * ([bk, s, hk, p] : List ℕ).prod := by
    have h1 : key.data.length = ([bk, s, hk, 2 * p] : List ℕ).prod := by
      rw [← hks]; exact hkw
    rw [h1]
    simp only [List.prod_cons, List.prod_nil]
    ring
  have hrotq := rotate_pairs_semantic rcos rsin rpow rdiv (2 * p) theta query.data
    b s hq p hlenq
  have hrotk := rotate_pairs_semantic rcos rsin rpow rdiv (2 * p) theta key.data
    bk s hk p hlenk
  have horq : query.shape.prod = ([b, s, hq, p] ++ [2] : List ℕ).prod := by
    rw [hqs]
    simp only [List.prod_cons, List.prod_nil, List.prod_append]
    ring
  have hork : key.shape.prod = ([bk, s, hk, p] ++ [2] : List ℕ).prod := by
    rw [hks]
    simp only [List.prod_cons, List.prod_nil, List.prod_append]
    ring
  have hreq := restack_eq b s hq p
    (rotR rcos rsin rpow rdiv (2 * p) theta query.data [b, s, hq, p])
    (rotI rcos rsin rpow rdiv (2 * p) theta query.data [b, s, hq, p]) query.shape horq
  have hrek := restack_eq bk s hk p
    (rotR rcos rsin rpow rdiv (2 * p) theta key.data [bk, s, hk, p])
    (rotI rcos rsin rpow rdiv (2 * p) theta key.data [bk, s, hk, p]) key.shape hork
  simp only [apply_rotary_emb, hseq, Option.some_bind, hsq, hsk, htrig, hrotq, hrotk,
    hreq, hrek]

/-! ### Reading entries off the rotated output -/

theorem flatIdx_pair (b s h p i0 i1 i2 i3 : ℕ) :
    flatIdx [b, s, h, 2 * p] [i0, i1, i2, 2 * i3]
      = 2 * flatIdx [b, s, h, p] [i0, i1, i2, i3] := by
  simp [flatIdx, List.prod_cons]
  ring

theorem flatIdx_pair_odd (b s h p i0 i1 i2 i3 : ℕ) :
    flatIdx [b, s, h, 2 * p] [i0, i1, i2, 2 * i3 + 1]
      = 2 * flatIdx [b, s, h, p] [i0, i1, i2, i3] + 1 := by
  simp [flatIdx, List.prod_cons]
  ring

theorem flatMap_pair_getD_even (F G : List ℕ → ℝ) (sh : List ℕ) {idx : List ℕ}
    (hv : validIdx sh idx) :
    ((allIdx sh).flatMap (fun x => [F x, G x])).getD (2 * flatIdx sh idx) 0 = F idx := by
  have hlen : flatIdx sh idx < (allIdx sh).length := by
    rw [allIdx_length]; exact flatIdx_lt_prod hv
  have h2 : 2 * flatIdx sh idx = flatIdx sh idx * 2 + 0 := by ring
  rw [h2, flatMap_getD_uniform (fun x => [F x, G x]) 2 (fun x => rfl) 0 []
    (allIdx sh) (flatIdx sh idx) 0 hlen (by omega), allIdx_getD hv]
  rfl

theorem flatMap_pair_getD_odd (F G : List ℕ → ℝ) (sh : List ℕ) {idx : List ℕ}
    (hv : validIdx sh idx) :
    ((allIdx sh).flatMap (fun x => [F x, G x])).getD (2 * flatIdx sh idx + 1) 0 = G idx := by
  have hlen : flatIdx sh idx < (allIdx sh).length := by
    rw [allIdx_length]; exact flatIdx_lt_prod hv
  have h2 : 2 * flatIdx sh idx + 1 = flatIdx sh idx * 2 + 1 := by ring
  rw [h2, flatMap_getD_uniform (fun x => [F x, G x]) 2 (fun x => rfl) 0 []
    (allIdx sh) (flatIdx sh idx) 1 hlen (by omega), allIdx_getD hv]
  rfl

theorem pairTensor_entry_even (F G : List ℕ → ℝ) (dt : DType) (b s h p : ℕ)
    {i0 i1 i2 i3 : ℕ} (h0 : i0 < b) (h1 : i1 < s) (h2 : i2 < h) (h3 : i3 < p) :
    (Tensor.mk [b, s, h, 2 * p] dt
        ((allIdx [b, s, h, p]).flatMap (fun x => [F x, G x]))).entry [i0, i1, i2, 2 * i3]
      = F [i0, i1, i2, i3] := by
  show ((allIdx [b, s, h, p]).flatMap (fun x => [F x, G x])).getD
    (flatIdx [b, s, h, 2 * p] [i0, i1, i2, 2 * i3]) 0 = F [i0, i1, i2, i3]
  rw [flatIdx_pair, flatMap_pair_getD_even F G [b, s, h, p] (validIdx_of_four h0 h1 h2 h3)]

theorem pairTensor_entry_odd (F G : List ℕ → ℝ) (dt : DType) (b s h p : ℕ)
    {i0 i1 i2 i3 : ℕ} (h0 : i0 < b) (h1 : i1 < s) (h2 : i2 < h) (h3 : i3 < p) :
    (Tensor.mk [b, s, h, 2 * p] dt
        ((allIdx [b, s, h, p]).flatMap (fun x => [F x, G x]))).entry [i0, i1, i2, 2 * i3 + 1]
      = G [i0, i1, i2, i3] := by
  show ((allIdx [b, s, h, p]).flatMap (fun x => [F x, G x])).getD
    (flatIdx [b, s, h, 2 * p] [i0, i1, i2, 2 * i3 + 1]) 0 = G [i0, i1, i2, i3]
  rw [flatIdx_pair_odd, flatMap_pair_getD_odd F G [b, s, h, p] (validIdx_of_four h0 h1 h2 h3)]

theorem rotR_at (rcos rsin : ℝ → ℝ) (rpow rdiv : ℝ → ℝ → ℝ) (hdim : ℕ) (theta : ℝ)
    (dat : List ℝ) (sh4 : List ℕ) (i0 i1 i2 i3 : ℕ) :
    rotR rcos rsin rpow rdiv hdim theta dat sh4 [i0, i1, i2, i3]
      = dat.getD (2 * flatIdx sh4 [i0, i1, i2, i3]) 0
          * rcos (pairAngle rpow rdiv hdim theta i1 i3)
        - dat.getD (2 * flatIdx sh4 [i0, i1, i2, i3] + 1) 0
          * rsin (pairAngle rpow rdiv hdim theta i1 i3) := rfl

theorem rotI_at (rcos rsin : ℝ → ℝ) (rpow rdiv : ℝ → ℝ → ℝ) (hdim : ℕ) (theta : ℝ)
    (dat : List ℝ) (sh4 : List ℕ) (i0 i1 i2 i3 : ℕ) :
    rotI rcos rsin rpow rdiv hdim theta dat sh4 [i0, i1, i2, i3]
      = dat.getD (2 * flatIdx sh4 [i0, i1, i2, i3]) 0
          * rsin (pairAngle rpow rdiv hdim theta i1 i3)
        + dat.getD (2 * flatIdx sh4 [i0, i1, i2, i3] + 1) 0
          * rcos (pairAngle rpow rdiv hdim theta i1 i3) := rfl

theorem pairAngle_real (hdim : ℕ) (theta : ℝ) (htheta : 0 < theta) (pos i : ℕ) :
    pairAngle (fun a z : ℝ => a ^ z) (fun a z : ℝ => a / z) hdim theta pos i
      = (pos : ℝ) * theta ^ (-(2 * (i : ℝ) / (hdim : ℝ))) := by
  have hrfl : pairAngle (fun a z : ℝ => a ^ z) (fun a z : ℝ => a / z) hdim theta pos i
      = (pos : ℝ) * (1 / theta ^ (((2 * i : ℕ) : ℝ) / (hdim : ℝ))) := rfl
  have hcast : ((2 * i : ℕ) : ℝ) = 2 * (i : ℝ) := by push_cast; ring
  rw [hrfl, hcast, one_div, ← Real.rpow_neg htheta.le]

theorem rot_dot (A B vr vi wr wi : ℝ) :
    (vr * Real.cos A - vi * Real.sin A) * (wr * Real.cos B - wi * Real.sin B)
      + (vr * Real.sin A + vi * Real.cos A) * (wr * Real.sin B + wi * Real.cos B)
    = (vr * wr + vi * wi) * Real.cos (A - B) + (vr * wi - vi * wr) * Real.sin (A - B) := by
  rw [Real.cos_sub, Real.sin_sub]
  ring

theorem norm_rot_pair (a re im : ℝ) :
    (re * Real.cos a - im * Real.sin a) ^ 2 + (re * Real.sin a + im * Real.cos a) ^ 2
      = re ^ 2 + im ^ 2 := by
  have h := Real.sin_sq_add_cos_sq a
  linear_combination (re ^ 2 + im ^ 2) * h

/-! ### The synthetic constant-row tensor -/

theorem flatten_replicate_length (S : ℕ) (v : List ℝ) :
    (List.replicate S v).flatten.length = S * v.length := by
  induction S with
  | zero => simp
  | succ S ih =>
      rw [List.replicate_succ, List.flatten_cons, List.length_append, ih]
      ring

theorem constRows_wf (S : ℕ) (v : List ℝ) : (constRows S v).wf := by
  show (List.replicate S v).flatten.length = ([1, S, 1, v.length] : List ℕ).prod
  rw [flatten_replicate_length]
  simp [List.prod_cons]

theorem flatten_replicate_getD (v : List ℝ) :
    ∀ (S pos t : ℕ), pos < S → t < v.length →
      (List.replicate S v).flatten.getD (pos * v.length + t) 0 = v.getD t 0 := by
  intro S
  induction S with
  | zero => intro pos t hpos _; omega
  | succ S ih =>
      intro pos t hpos ht
      rw [List.replicate_succ, List.flatten_cons]
      cases pos with
      | zero =>
          rw [Nat.zero_mul, Nat.zero_add]
          exact getD_append_of_lt v _ t ht 0
      | succ pos =>
          have harith : (pos + 1) * v.length + t = v.length + (pos * v.length + t) := by
            ring
          rw [harith, getD_append_add]
          exact ih pos t (by omega) ht

/-! ### Claim theorems -/

/-- C9: two calls to `apply_rotary_emb` that differ only in the `max_seq_len`
argument return identical outputs; the parameter does not influence the
result. -/
theorem c9_max_seq_len_unused (rcos rsin : ℝ → ℝ) (rpow rdiv : ℝ → ℝ → ℝ)
    (query key : Tensor) (head_dim m1 m2 : ℕ) (theta : ℝ) :
    apply_rotary_emb rcos rsin rpow rdiv query key head_dim m1 theta
      = apply_rotary_emb rcos rsin rpow rdiv query key head_dim m2 theta := rfl

/-- C2: for every valid query and key input (4-D, positive dimensions, even
trailing dimension equal to the declared head_dim), `apply_rotary_emb`
succeeds and the output shapes equal the corresponding input shapes. -/
theorem c2_shape_preserved (rcos rsin : ℝ → ℝ) (rpow rdiv : ℝ → ℝ → ℝ)
    (query key : Tensor) (b s hq bk hk p msl : ℕ) (theta : ℝ)
    (hqs : query.shape = [b, s, hq, 2 * p]) (hks : key.shape = [bk, s, hk, 2 * p])
    (hqw : query.wf) (hkw : key.wf)
    (hb : 0 < b) (hs : 0 < s) (hhq : 0 < hq) (hbk : 0 < bk) (hhk : 0 < hk) :
    ∃ qout kout,
      apply_rotary_emb rcos rsin rpow rdiv query key (2 * p) msl theta = some (qout, kout)
        ∧ qout.shape = query.shape ∧ kout.shape = key.shape :=
  ⟨_, _, apply_rotary_emb_spec rcos rsin rpow rdiv query key b s hq bk hk p msl
    theta hqs hks hqw hkw hb hs hhq hbk hhk, rfl, rfl⟩

/-- Witness for C2 at a concrete input of shape (1, 1, 1, 2). -/
theorem c2_shape_preserved_witness :
    ∃ qout kout,
      apply_rotary_emb (fun _ => 0) (fun _ => 0) (fun _ _ => 0) (fun _ _ => 0)
          (⟨[1, 1, 1, 2], .float32, [1, 2]⟩ : Tensor)
          (⟨[1, 1, 1, 2], .float32, [3, 4]⟩ : Tensor) (2 * 1) 8 5 = some (qout, kout)
        ∧ qout.shape = [1, 1, 1, 2] ∧ kout.shape = [1, 1, 1, 2] :=
  c2_shape_preserved (fun _ => 0) (fun _ => 0) (fun _ _ => 0) (fun _ _ => 0)
    ⟨[1, 1, 1, 2], .float32, [1, 2]⟩ ⟨[1, 1, 1, 2], .float32, [3, 4]⟩
    1 1 1 1 1 1 8 5 rfl rfl (by decide) (by decide)
    (by decide) (by decide) (by decide) (by decide) (by decide)

/-- C10: on every valid input of any dtype, both outputs of
`apply_rotary_emb` have float32 dtype — the computation promotes through
`.float()` and never casts back. -/
theorem c10_output_float32 (rcos rsin : ℝ → ℝ) (rpow rdiv : ℝ → ℝ → ℝ)
    (query key : Tensor) (b s hq bk hk p msl : ℕ) (theta : ℝ)
    (hqs : query.shape = [b, s, hq, 2 * p]) (hks : key.shape = [bk, s, hk, 2 * p])
    (hqw : query.wf) (hkw : key.wf)
    (hb : 0 < b) (hs : 0 < s) (hhq : 0 < hq) (hbk : 0 < bk) (hhk : 0 < hk) :
    ∃ qout kout,
      apply_rotary_emb rcos rsin rpow rdiv query key (2 * p) msl theta = some (qout, kout)
        ∧ qout.dtype = .float32 ∧ kout.dtype = .float32 :=
  ⟨_, _, apply_rotary_emb_spec rcos rsin rpow rdiv query key b s hq bk hk p msl
    theta hqs hks hqw hkw hb hs hhq hbk hhk, rfl, rfl⟩

/-- Witness for C10 at a concrete int64 input of shape (1, 1, 1, 2). -/
theorem c10_output_float32_witness :
    ∃ qout kout,
      apply_rotary_emb (fun _ => 0) (fun _ => 0) (fun _ _ => 0) (fun _ _ => 0)
          (⟨[1, 1, 1, 2], .int64, [1, 2]⟩ : Tensor)
          (⟨[1, 1, 1, 2], .int64, [3, 4]⟩ : Tensor) (2 * 1) 8 5 = some (qout, kout)
        ∧ qout.dtype = .float32 ∧ kout.dtype = .float32 :=
  c10_output_float32 (fun _ => 0) (fun _ => 0) (fun _ _ => 0) (fun _ _ => 0)
    ⟨[1, 1, 1, 2], .int64, [1, 2]⟩ ⟨[1, 1, 1, 2], .int64, [3, 4]⟩
    1 1 1 1 1 1 8 5 rfl rfl (by decide) (by decide)
    (by decide) (by decide) (by decide) (by decide) (by decide)

/-- C7: applying the kernel's 2-D pair rotation with angle theta and then
with angle -theta returns the original pair (exactly, over the reals). -/
theorem c7_rotation_inverse (theta re im : ℝ) :
    rot2 (Real.cos (-theta)) (Real.sin (-theta))
        (rot2 (Real.cos theta) (Real.sin theta) re im).1
        (rot2 (Real.cos theta) (Real.sin theta) re im).2 = (re, im) := by
  have h := Real.sin_sq_add_cos_sq theta
  simp only [rot2, Real.cos_neg, Real.sin_neg, Prod.mk.injEq]
  constructor
  · linear_combination re * h
  · linear_combination im * h

/-- C8 (amended): if the query tensor's trailing dimension is odd (with
positive leading dimensions), the pair-splitting reshape misaligns and
`apply_rotary_emb` fails with a tensor-library error, returning no partial
result, whatever the declared head_dim is. -/
theorem c8_odd_trailing_fails (rcos rsin : ℝ → ℝ) (rpow rdiv : ℝ → ℝ → ℝ)
    (query key : Tensor) (b s h d hdim msl : ℕ) (theta : ℝ)
    (hqs : query.shape = [b, s, h, d]) (hd : d % 2 = 1)
    (hb : 0 < b) (hs : 0 < s) (hh : 0 < h) :
    apply_rotary_emb rcos rsin rpow rdiv query key hdim msl theta = none := by
  have hseq : seqlenOf query.shape = some s := by rw [hqs]; rfl
  have hfail := splitPairs_fail query b s h d hqs hb hs hh hd
  simp only [apply_rotary_emb, hseq, Option.some_bind, hfail, Option.none_bind]

/-- Witness for the amended C8: a (1, 1, 1, 3) query makes the call fail. -/
theorem c8_odd_trailing_fails_witness :
    (3 % 2 = 1) ∧
      apply_rotary_emb (fun _ => 0) (fun _ => 0) (fun _ _ => 0) (fun _ _ => 0)
          (⟨[1, 1, 1, 3], .float32, [0, 0, 0]⟩ : Tensor)
          (⟨[1, 1, 1, 3], .float32, [0, 0, 0]⟩ : Tensor) 3 4 1 = none :=
  ⟨rfl, c8_odd_trailing_fails (fun _ => 0) (fun _ => 0) (fun _ _ => 0) (fun _ _ => 0)
    ⟨[1, 1, 1, 3], .float32, [0, 0, 0]⟩ ⟨[1, 1, 1, 3], .float32, [0, 0, 0]⟩
    1 1 1 3 3 4 1 rfl (by decide) (by decide) (by decide) (by decide)⟩

/-- Counterexample to C8 as stated: with head_dim = 3 (odd) and query/key
trailing dimension 4 (≠ head_dim), the call succeeds instead of failing:
arange(0, 3, 2) has 2 entries, which broadcasts against the 2 pairs. -/
theorem c8_counterexample :
    (3 % 2 = 1 ∧ (4 : ℕ) ≠ 3) ∧
      (apply_rotary_emb Real.cos Real.sin (fun a z => a ^ z) (fun a z => a / z)
          (⟨[1, 1, 1, 4], .float32, [1, 2, 3, 4]⟩ : Tensor)
          (⟨[1, 1, 1, 4], .float32, [5, 6, 7, 8]⟩ : Tensor) 3 2 10000).isSome = true :=
  ⟨⟨rfl, by decide⟩, rfl⟩

/-- C1: on query/key tensors of shape (batch, seqlen, heads, head_dim) with
head_dim = 2p even, `apply_rotary_emb` (instantiated with real cosine, sine,
power and division) splits the last dimension into consecutive (real, imag)
pairs, rotates pair i3 at sequence position i1 by the angle
i1 * theta^(-2*i3/head_dim), and interleaves the rotated components back
into the original layout, preserving both shapes. -/
theorem c1_rotary_pair_rotation
    (query key : Tensor) (b s hq bk hk p msl : ℕ) (theta : ℝ)
    (hqs : query.shape = [b, s, hq, 2 * p]) (hks : key.shape = [bk, s, hk, 2 * p])
    (hqw : query.wf) (hkw : key.wf)
    (hb : 0 < b) (hs : 0 < s) (hhq : 0 < hq) (hbk : 0 < bk) (hhk : 0 < hk)
    (htheta : 0 < theta) :
    ∃ qout kout,
      apply_rotary_emb Real.cos Real.sin (fun a z => a ^ z) (fun a z => a / z)
          query key (2 * p) msl theta = some (qout, kout) ∧
      qout.shape = query.shape ∧ kout.shape = key.shape ∧
      (∀ i0 i1 i2 i3, i0 < b → i1 < s → i2 < hq → i3 < p →
        qout.entry [i0, i1, i2, 2 * i3]
            = query.entry [i0, i1, i2, 2 * i3]
                * Real.cos ((i1 : ℝ) * theta ^ (-(2 * (i3 : ℝ) / ((2 * p : ℕ) : ℝ))))
              - query.entry [i0, i1, i2, 2 * i3 + 1]
                * Real.sin ((i1 : ℝ) * theta ^ (-(2 * (i3 : ℝ) / ((2 * p : ℕ) : ℝ)))) ∧
        qout.entry [i0, i1, i2, 2 * i3 + 1]
            = query.entry [i0, i1, i2, 2 * i3]
                * Real.sin ((i1 : ℝ) * theta ^ (-(2 * (i3 : ℝ) / ((2 * p : ℕ) : ℝ))))
              + query.entry [i0, i1, i2, 2 * i3 + 1]
                * Real.cos ((i1 : ℝ) * theta ^ (-(2 * (i3 : ℝ) / ((2 * p : ℕ) : ℝ))))) ∧
      (∀ i0 i1 i2 i3, i0 < bk → i1 < s → i2 < hk → i3 < p →
        kout.entry [i0, i1, i2, 2 * i3]
            = key.entry [i0, i1, i2, 2 * i3]
                * Real.cos ((i1 : ℝ) * theta ^ (-(2 * (i3 : ℝ) / ((2 * p : ℕ) : ℝ))))
              - key.entry [i0, i1, i2, 2 * i3 + 1]
                * Real.sin ((i1 : ℝ) * theta ^ (-(2 * (i3 : ℝ) / ((2 * p : ℕ) : ℝ)))) ∧
        kout.entry [i0, i1, i2, 2 * i3 + 1]
            = key.entry [i0, i1, i2, 2 * i3]
                * Real.sin ((i1 : ℝ) * theta ^ (-(2 * (i3 : ℝ) / ((2 * p : ℕ) : ℝ))))
              + key.entry [i0, i1, i2, 2 * i3 + 1]
                * Real.cos ((i1 : ℝ) * theta ^ (-(2 * (i3 : ℝ) / ((2 * p : ℕ) : ℝ))))) := by
  have master := apply_rotary_emb_spec Real.cos Real.sin (fun a z => a ^ z)
    (fun a z => a / z) query key b s hq bk hk p msl theta hqs hks hqw hkw hb hs hhq hbk hhk
  refine ⟨_, _, master, rfl, rfl, ?_, ?_⟩
  · intro i0 i1 i2 i3 h0 h1 h2 h3
    have hsh : ∀ (dat : List ℝ) (idx : List ℕ),
        (Tensor.mk query.shape DType.float32 dat).entry idx
          = (Tensor.mk [b, s, hq, 2 * p] DType.float32 dat).entry idx := by
      intro dat idx; rw [hqs]
    have hq_even : query.entry [i0, i1, i2, 2 * i3]
        = query.data.getD (2 * flatIdx [b, s, hq, p] [i0, i1, i2, i3]) 0 := by
      show query.data.getD (flatIdx query.shape [i0, i1, i2, 2 * i3]) 0 = _
      rw [hqs, flatIdx_pair]
    have hq_odd : query.entry [i0, i1, i2, 2 * i3 + 1]
        = query.data.getD (2 * flatIdx [b, s, hq, p] [i0, i1, i2, i3] + 1) 0 := by
      show query.data.getD (flatIdx query.shape [i0, i1, i2, 2 * i3 + 1]) 0 = _
      rw [hqs, flatIdx_pair_odd]
    constructor
    · rw [hsh, pairTensor_entry_even _ _ DType.float32 b s hq p h0 h1 h2 h3, rotR_at,
        pairAngle_real (2 * p) theta htheta i1 i3, hq_even, hq_odd]
    · rw [hsh, pairTensor_entry_odd _ _ DType.float32 b s hq p h0 h1 h2 h3, rotI_at,
        pairAngle_real (2 * p) theta htheta i1 i3, hq_even, hq_odd]
  · intro i0 i1 i2 i3 h0 h1 h2 h3
    have hsh : ∀ (dat : List ℝ) (idx : List ℕ),
        (Tensor.mk key.shape DType.float32 dat).entry idx
          = (Tensor.mk [bk, s, hk, 2 * p] DType.float32 dat).entry idx := by
      intro dat idx; rw [hks]
    have hk_even : key.entry [i0, i1, i2, 2 * i3]
        = key.data.getD (2 * flatIdx [bk, s, hk, p] [i0, i1, i2, i3]) 0 := by
      show key.data.getD (flatIdx key.shape [i0, i1, i2, 2 * i3]) 0 = _
      rw [hks, flatIdx_pair]
    have hk_odd : key.entry [i0, i1, i2, 2 * i3 + 1]
        = key.data.getD (2 * flatIdx [bk, s, hk, p] [i0, i1, i2, i3] + 1) 0 := by
      show key.data.getD (flatIdx key.shape [i0, i1, i2, 2 * i3 + 1]) 0 = _
      rw [hks, flatIdx_pair_odd]
    constructor
    · rw [hsh, pairTensor_entry_even _ _ DType.float32 bk s hk p h0 h1 h2 h3, rotR_at,
        pairAngle_real (2 * p) theta htheta i1 i3, hk_even, hk_odd]
    · rw [hsh, pairTensor_entry_odd _ _ DType.float32 bk s hk p h0 h1 h2 h3, rotI_at,
        pairAngle_real (2 * p) theta htheta i1 i3, hk_even, hk_odd]

/-- Witness for C1 at a concrete (1, 1, 1, 2) input with theta = 1. -/
theorem c1_rotary_pair_rotation_witness :
    ∃ qout kout,
      apply_rotary_emb Real.cos Real.sin (fun a z => a ^ z) (fun a z => a / z)
          (⟨[1, 1, 1, 2], .float32, [1, 2]⟩ : Tensor)
          (⟨[1, 1, 1, 2], .float32, [3, 4]⟩ : Tensor) (2 * 1) 8 1 = some (qout, kout)
        ∧ qout.shape = [1, 1, 1, 2] ∧ kout.shape = [1, 1, 1, 2] := by
  obtain ⟨qout, kout, happly, hsh1, hsh2, hq, hk⟩ :=
    c1_rotary_pair_rotation ⟨[1, 1, 1, 2], .float32, [1, 2]⟩
      ⟨[1, 1, 1, 2], .float32, [3, 4]⟩ 1 1 1 1 1 1 8 1 rfl rfl (by decide) (by decide)
      (by decide) (by decide) (by decide) (by decide) (by decide) zero_lt_one
  exact ⟨qout, kout, happly, hsh1, hsh2⟩

/-- C3: the rotation applied by `apply_rotary_emb` preserves the squared
norm of every (real, imag) pair, exactly over the reals, at all positions,
heads and batch entries, for both query and key. -/
theorem c3_norm_preserved (rpow rdiv : ℝ → ℝ → ℝ)
    (query key : Tensor) (b s hq bk hk p msl : ℕ) (theta : ℝ)
    (hqs : query.shape = [b, s, hq, 2 * p]) (hks : key.shape = [bk, s, hk, 2 * p])
    (hqw : query.wf) (hkw : key.wf)
    (hb : 0 < b) (hs : 0 < s) (hhq : 0 < hq) (hbk : 0 < bk) (hhk : 0 < hk) :
    ∃ qout kout,
      apply_rotary_emb Real.cos Real.sin rpow rdiv query key (2 * p) msl theta
        = some (qout, kout) ∧
      (∀ i0 i1 i2 i3, i0 < b → i1 < s → i2 < hq → i3 < p →
        qout.entry [i0, i1, i2, 2 * i3] ^ 2 + qout.entry [i0, i1, i2, 2 * i3 + 1] ^ 2
          = query.entry [i0, i1, i2, 2 * i3] ^ 2
              + query.entry [i0, i1, i2, 2 * i3 + 1] ^ 2) ∧
      (∀ i0 i1 i2 i3, i0 < bk → i1 < s → i2 < hk → i3 < p →
        kout.entry [i0, i1, i2, 2 * i3] ^ 2 + kout.entry [i0, i1, i2, 2 * i3 + 1] ^ 2
          = key.entry [i0, i1, i2, 2 * i3] ^ 2
              + key.entry [i0, i1, i2, 2 * i3 + 1] ^ 2) := by
  have master := apply_rotary_emb_spec Real.cos Real.sin rpow rdiv
    query key b s hq bk hk p msl theta hqs hks hqw hkw hb hs hhq hbk hhk
  refine ⟨_, _, master, ?_, ?_⟩
  · intro i0 i1 i2 i3 h0 h1 h2 h3
    have hsh : ∀ (dat : List ℝ) (idx : List ℕ),
        (Tensor.mk query.shape DType.float32 dat).entry idx
          = (Tensor.mk [b, s, hq, 2 * p] DType.float32 dat).entry idx := by
      intro dat idx; rw [hqs]
    have hq_even : query.entry [i0, i1, i2, 2 * i3]
        = query.data.getD (2 * flatIdx [b, s, hq, p] [i0, i1, i2, i3]) 0 := by
      show query.data.getD (flatIdx query.shape [i0, i1, i2, 2 * i3]) 0 = _
      rw [hqs, flatIdx_pair]
    have hq_odd : query.entry [i0, i1, i2, 2 * i3 + 1]
        = query.data.getD (2 * flatIdx [b, s, hq, p] [i0, i1, i2, i3] + 1) 0 := by
      show query.data.getD (flatIdx query.shape [i0, i1, i2, 2 * i3 + 1]) 0 = _
      rw [hqs, flatIdx_pair_odd]
    rw [hsh, hsh, pairTensor_entry_even _ _ DType.float32 b s hq p h0 h1 h2 h3,
      pairTensor_entry_odd _ _ DType.float32 b s hq p h0 h1 h2 h3, rotR_at, rotI_at,
      hq_even, hq_odd]
    exact norm_rot_pair _ _ _
  · intro i0 i1 i2 i3 h0 h1 h2 h3
    have hsh : ∀ (dat : List ℝ) (idx : List ℕ),
        (Tensor.mk key.shape DType.float32 dat).entry idx
          = (Tensor.mk [bk, s, hk, 2 * p] DType.float32 dat).entry idx := by
      intro dat idx; rw [hks]
    have hk_even : key.entry [i0, i1, i2, 2 * i3]
        = key.data.getD (2 * flatIdx [bk, s, hk, p] [i0, i1, i2, i3]) 0 := by
      show key.data.getD (flatIdx key.shape [i0, i1, i2, 2 * i3]) 0 = _
      rw [hks, flatIdx_pair]
    have hk_odd : key.entry [i0, i1, i2, 2 * i3 + 1]
        = key.data.getD (2 * flatIdx [bk, s, hk, p] [i0, i1, i2, i3] + 1) 0 := by
      show key.data.getD (flatIdx key.shape [i0, i1, i2, 2 * i3 + 1]) 0 = _
      rw [hks, flatIdx_pair_odd]
    rw [hsh, hsh, pairTensor_entry_even _ _ DType.float32 bk s hk p h0 h1 h2 h3,
      pairTensor_entry_odd _ _ DType.float32 bk s hk p h0 h1 h2 h3, rotR_at, rotI_at,
      hk_even, hk_odd]
    exact norm_rot_pair _ _ _

/-- Witness for C3 at a concrete (1, 1, 1, 2) input. -/
theorem c3_norm_preserved_witness :
    ∃ qout kout,
      apply_rotary_emb Real.cos Real.sin (fun a z => a ^ z) (fun a z => a / z)
          (⟨[1, 1, 1, 2], .float32, [1, 2]⟩ : Tensor)
          (⟨[1, 1, 1, 2], .float32, [3, 4]⟩ : Tensor) (2 * 1) 8 10000 = some (qout, kout)
        ∧ qout.entry [0, 0, 0, 2 * 0] ^ 2 + qout.entry [0, 0, 0, 2 * 0 + 1] ^ 2
            = (⟨[1, 1, 1, 2], .float32, [1, 2]⟩ : Tensor).entry [0, 0, 0, 2 * 0] ^ 2
                + (⟨[1, 1, 1, 2], .float32, [1, 2]⟩ : Tensor).entry [0, 0, 0, 2 * 0 + 1] ^ 2 := by
  obtain ⟨qout, kout, happly, hq, hk⟩ :=
    c3_norm_preserved (fun a z => a ^ z) (fun a z => a / z)
      ⟨[1, 1, 1, 2], .float32, [1, 2]⟩ ⟨[1, 1, 1, 2], .float32, [3, 4]⟩
      1 1 1 1 1 1 8 10000 rfl rfl (by decide) (by decide)
      (by decide) (by decide) (by decide) (by decide) (by decide)
  exact ⟨qout, kout, happly,
    hq 0 0 0 0 (by decide) (by decide) (by decide) (by decide)⟩

/-- C6: with theta = 10000, head_dim = 2 and sequence length 1, the angle at
position 0 is 0 for all frequencies, the rotation is the identity, and
`apply_rotary_emb` returns its (float32) inputs unchanged. -/
theorem c6_identity_seqlen_one (rpow rdiv : ℝ → ℝ → ℝ) (query key : Tensor)
    (b h bk hk msl : ℕ)
    (hqs : query.shape = [b, 1, h, 2]) (hks : key.shape = [bk, 1, hk, 2])
    (hqw : query.wf) (hkw : key.wf)
    (hqd : query.dtype = .float32) (hkd : key.dtype = .float32)
    (hb : 0 < b) (hh : 0 < h) (hbk : 0 < bk) (hhk : 0 < hk) :
    apply_rotary_emb Real.cos Real.sin rpow rdiv query key 2 msl 10000
      = some (query, key) := by
  have master := apply_rotary_emb_spec Real.cos Real.sin rpow rdiv query key
    b 1 h bk hk 1 msl 10000 (by rw [hqs]) (by rw [hks]) hqw hkw hb (by norm_num) hh hbk hhk
  rw [show (2 * 1 : ℕ) = 2 from rfl] at master
  rw [master]
  have hcollapse : ∀ (t : Tensor) (bb hh2 : ℕ), t.shape = [bb, 1, hh2, 2] → t.wf →
      (allIdx [bb, 1, hh2, 1]).flatMap (fun idx =>
          [rotR Real.cos Real.sin rpow rdiv 2 10000 t.data [bb, 1, hh2, 1] idx,
           rotI Real.cos Real.sin rpow rdiv 2 10000 t.data [bb, 1, hh2, 1] idx])
        = t.data := by
    intro t bb hh2 hts htw
    have hstep : ∀ idx ∈ allIdx [bb, 1, hh2, 1],
        [rotR Real.cos Real.sin rpow rdiv 2 10000 t.data [bb, 1, hh2, 1] idx,
         rotI Real.cos Real.sin rpow rdiv 2 10000 t.data [bb, 1, hh2, 1] idx]
          = [t.data.getD (2 * flatIdx [bb, 1, hh2, 1] idx) 0,
             t.data.getD (2 * flatIdx [bb, 1, hh2, 1] idx + 1) 0] := by
      intro idx hidx
      obtain ⟨i0, i1, i2, i3, rfl, h0, h1, h2, h3⟩ :=
        validIdx_four_elim (mem_allIdx_validIdx hidx)
      have hi1 : i1 = 0 := by omega
      have hi3 : i3 = 0 := by omega
      subst hi1 hi3
      rw [rotR_at, rotI_at]
      have hangle : pairAngle rpow rdiv 2 10000 0 0 = 0 := by
        unfold pairAngle
        simp
      rw [hangle, Real.cos_zero, Real.sin_zero]
      simp [mul_one, mul_zero, sub_zero, zero_add]
    rw [flatMap_congrOn _ _ _ hstep]
    have hstep2 : (allIdx [bb, 1, hh2, 1]).flatMap (fun idx =>
        [t.data.getD (2 * flatIdx [bb, 1, hh2, 1] idx) 0,
         t.data.getD (2 * flatIdx [bb, 1, hh2, 1] idx + 1) 0])
        = (List.range (([bb, 1, hh2, 1] : List ℕ).prod)).flatMap (fun m =>
            [t.data.getD (2 * m) 0, t.data.getD (2 * m + 1) 0]) := by
      rw [← allIdx_map_flatIdx [bb, 1, hh2, 1], List.flatMap_map]
    rw [hstep2]
    apply range_pair_flatMap
    have h1 : t.data.length = ([bb, 1, hh2, 2] : List ℕ).prod := by
      rw [← hts]; exact htw
    rw [h1]
    simp only [List.prod_cons, List.prod_nil]
    ring
  refine congrArg some (congrArg₂ Prod.mk ?_ ?_)
  · rw [hcollapse query b h hqs hqw, ← hqd]
  · rw [hcollapse key bk hk hks hkw, ← hkd]

/-- Witness for C6 at a concrete (1, 1, 1, 2) float32 input. -/
theorem c6_identity_seqlen_one_witness :
    apply_rotary_emb Real.cos Real.sin (fun a z => a ^ z) (fun a z => a / z)
        (⟨[1, 1, 1, 2], .float32, [1, 2]⟩ : Tensor)
        (⟨[1, 1, 1, 2], .float32, [3, 4]⟩ : Tensor) 2 8 10000
      = some (⟨[1, 1, 1, 2], .float32, [1, 2]⟩, ⟨[1, 1, 1, 2], .float32, [3, 4]⟩) :=
  c6_identity_seqlen_one (fun a z => a ^ z) (fun a z => a / z)
    ⟨[1, 1, 1, 2], .float32, [1, 2]⟩ ⟨[1, 1, 1, 2], .float32, [3, 4]⟩
    1 1 1 1 8 rfl rfl (by decide) (by decide) rfl rfl
    (by decide) (by decide) (by decide) (by decide)

/-- C4: for a fixed query vector v and key vector w carried at every
position of a synthetic sequence, the per-pair dot product of the rotated
query at position i with the rotated key at position j depends only on the
difference i - j: whenever i + j' = i' + j, the dot products at (i, j) and
at (i', j') coincide. -/
theorem c4_relative_position (rpow rdiv : ℝ → ℝ → ℝ) (v w : List ℝ)
    (S p msl i j i' j' m : ℕ) (theta : ℝ)
    (hv : v.length = 2 * p) (hw : w.length = 2 * p)
    (hi : i < S) (hj : j < S) (hi' : i' < S) (hj' : j' < S) (hm : m < p)
    (hrel : i + j' = i' + j) :
    ∃ qout kout,
      apply_rotary_emb Real.cos Real.sin rpow rdiv (constRows S v) (constRows S w)
          (2 * p) msl theta = some (qout, kout) ∧
      qout.entry [0, i, 0, 2 * m] * kout.entry [0, j, 0, 2 * m]
          + qout.entry [0, i, 0, 2 * m + 1] * kout.entry [0, j, 0, 2 * m + 1]
        = qout.entry [0, i', 0, 2 * m] * kout.entry [0, j', 0, 2 * m]
          + qout.entry [0, i', 0, 2 * m + 1] * kout.entry [0, j', 0, 2 * m + 1] := by
  have hS : 0 < S := by omega
  have hqs' : (constRows S v).shape = [1, S, 1, 2 * p] := by
    show [1, S, 1, v.length] = _
    rw [hv]
  have hks' : (constRows S w).shape = [1, S, 1, 2 * p] := by
    show [1, S, 1, w.length] = _
    rw [hw]
  have master := apply_rotary_emb_spec Real.cos Real.sin rpow rdiv
    (constRows S v) (constRows S w) 1 S 1 1 1 p msl theta hqs' hks'
    (constRows_wf S v) (constRows_wf S w) Nat.one_pos hS Nat.one_pos Nat.one_pos Nat.one_pos
  refine ⟨_, _, master, ?_⟩
  have hent : ∀ (u : List ℝ), u.length = 2 * p → ∀ x, x < S →
      ((Tensor.mk (constRows S u).shape DType.float32
          ((allIdx [1, S, 1, p]).flatMap (fun idx =>
            [rotR Real.cos Real.sin rpow rdiv (2 * p) theta (constRows S u).data
                [1, S, 1, p] idx,
             rotI Real.cos Real.sin rpow rdiv (2 * p) theta (constRows S u).data
                [1, S, 1, p] idx]))).entry [0, x, 0, 2 * m]
        = u.getD (2 * m) 0 * Real.cos (pairAngle rpow rdiv (2 * p) theta x m)
          - u.getD (2 * m + 1) 0 * Real.sin (pairAngle rpow rdiv (2 * p) theta x m))
      ∧ ((Tensor.mk (constRows S u).shape DType.float32
          ((allIdx [1, S, 1, p]).flatMap (fun idx =>
            [rotR Real.cos Real.sin rpow rdiv (2 * p) theta (constRows S u).data
                [1, S, 1, p] idx,
             rotI Real.cos Real.sin rpow rdiv (2 * p) theta (constRows S u).data
                [1, S, 1, p] idx]))).entry [0, x, 0, 2 * m + 1]
        = u.getD (2 * m) 0 * Real.sin (pairAngle rpow rdiv (2 * p) theta x m)
          + u.getD (2 * m + 1) 0 * Real.cos (pairAngle rpow rdiv (2 * p) theta x m)) := by
    intro u hu x hx
    have hshu : (constRows S u).shape = [1, S, 1, 2 * p] := by
      show [1, S, 1, u.length] = _
      rw [hu]
    have hsh : ∀ (dat : List ℝ) (idx : List ℕ),
        (Tensor.mk (constRows S u).shape DType.float32 dat).entry idx
          = (Tensor.mk [1, S, 1, 2 * p] DType.float32 dat).entry idx := by
      intro dat idx; rw [hshu]
    have hflat : flatIdx [1, S, 1, p] [0, x, 0, m] = x * p + m := by
      simp [flatIdx, List.prod_cons]
    have hdat_even : (constRows S u).data.getD (2 * flatIdx [1, S, 1, p] [0, x, 0, m]) 0
        = u.getD (2 * m) 0 := by
      rw [hflat]
      show (List.replicate S u).flatten.getD (2 * (x * p + m)) 0 = _
      have harith : 2 * (x * p + m) = x * u.length + 2 * m := by rw [hu]; ring
      rw [harith]
      exact flatten_replicate_getD u S x (2 * m) hx (by omega)
    have hdat_odd : (constRows S u).data.getD
        (2 * flatIdx [1, S, 1, p] [0, x, 0, m] + 1) 0 = u.getD (2 * m + 1) 0 := by
      rw [hflat]
      show (List.replicate S u).flatten.getD (2 * (x * p + m) + 1) 0 = _
      have harith : 2 * (x * p + m) + 1 = x * u.length + (2 * m + 1) := by rw [hu]; ring
      rw [harith]
      exact flatten_replicate_getD u S x (2 * m + 1) hx (by omega)
    constructor
    · rw [hsh, pairTensor_entry_even _ _ DType.float32 1 S 1 p Nat.one_pos hx
        Nat.one_pos hm, rotR_at, hdat_even, hdat_odd]
    · rw [hsh, pairTensor_entry_odd _ _ DType.float32 1 S 1 p Nat.one_pos hx
        Nat.one_pos hm, rotI_at, hdat_even, hdat_odd]
  rw [(hent v hv i hi).1, (hent v hv i hi).2, (hent w hw j hj).1, (hent w hw j hj).2,
    (hent v hv i' hi').1, (hent v hv i' hi').2, (hent w hw j' hj').1,
    (hent w hw j' hj').2, rot_dot, rot_dot]
  have hAB : pairAngle rpow rdiv (2 * p) theta i m - pairAngle rpow rdiv (2 * p) theta j m
      = pairAngle rpow rdiv (2 * p) theta i' m
        - pairAngle rpow rdiv (2 * p) theta j' m := by
    unfold pairAngle
    have hcast : (i : ℝ) + (j' : ℝ) = (i' : ℝ) + (j : ℝ) := by exact_mod_cast hrel
    linear_combination invFreqVal rpow rdiv (2 * p) theta m * hcast
  rw [hAB]

/-- Witness for C4 at a concrete three-position sequence with p = 1. -/
theorem c4_relative_position_witness :
    ∃ qout kout,
      apply_rotary_emb Real.cos Real.sin (fun a z => a ^ z) (fun a z => a / z)
          (constRows 3 [1, 2]) (constRows 3 [3, 4]) (2 * 1) 8 10000 = some (qout, kout)
        ∧ qout.entry [0, 2, 0, 2 * 0] * kout.entry [0, 1, 0, 2 * 0]
            + qout.entry [0, 2, 0, 2 * 0 + 1] * kout.entry [0, 1, 0, 2 * 0 + 1]
          = qout.entry [0, 1, 0, 2 * 0] * kout.entry [0, 0, 0, 2 * 0]
            + qout.entry [0, 1, 0, 2 * 0 + 1] * kout.entry [0, 0, 0, 2 * 0 + 1] :=
  c4_relative_position (fun a z => a ^ z) (fun a z => a / z) [1, 2] [3, 4]
    3 1 8 2 1 1 0 0 10000 (by decide) (by decide) (by decide) (by decide)
    (by decide) (by decide) (by decide) (by decide)

/-! ### Lemmas for the broadcast-shape helper -/

theorem shape_bridge (l : List ℕ) :
    l.enum.map (fun q => if q.1 = 1 ∨ q.1 = l.length - 1 then q.2 else 1)
      = (List.range l.length).map (fun i =>
          if i = 1 ∨ i = l.length - 1 then l.getD i 0 else 1) := by
  apply List.ext_getElem
  · simp
  · intro i h1 h2
    simp only [List.getElem_map, List.getElem_enum, List.getElem_range]
    have hi : i < l.length := by simpa using h1
    rw [List.getD_eq_getElem l 0 hi]

theorem prod_range_single (f : ℕ → ℕ) :
    ∀ m : ℕ, 2 ≤ m → (∀ i, i < m → i ≠ 1 → f i = 1) →
      ((List.range m).map f).prod = f 1 := by
  intro m
  induction m with
  | zero => intro hm _; omega
  | succ m ih =>
      intro hm hf
      rcases Nat.lt_or_ge m 2 with hm2 | hm2
      · have hm1 : m = 1 := by omega
        subst hm1
        have h0 : f 0 = 1 := hf 0 (by omega) (by omega)
        show ((List.range 2).map f).prod = f 1
        rw [show List.range 2 = [0, 1] from rfl]
        simp [h0]
      · rw [List.range_succ, List.map_append, List.prod_append,
          ih hm2 (fun i hi hi1 => hf i (by omega) hi1)]
        have hm' : f m = 1 := hf m (by omega) (by omega)
        simp [hm']

theorem shapeList_prod (n : ℕ) (g : ℕ → ℕ) (hn : 3 ≤ n) :
    ((List.range n).map (fun i => if i = 1 ∨ i = n - 1 then g i else 1)).prod
      = g 1 * g (n - 1) := by
  obtain ⟨k, rfl⟩ : ∃ k, n = k + 1 := ⟨n - 1, by omega⟩
  simp only [Nat.add_sub_cancel]
  rw [List.range_succ, List.map_append, List.prod_append]
  simp only [List.map_cons, List.map_nil, List.prod_cons, List.prod_nil]
  rw [if_pos (Or.inr trivial)]
  rw [prod_range_single _ k (by omega) (fun i hi hi1 => by rw [if_neg (by omega)])]
  rw [if_pos (Or.inl rfl), mul_one]

/-- C5 (corrected): `reshape_for_broadcast` raises AssertionError exactly
when x has fewer than 2 dimensions or the frequency tensor's shape is not
(x.shape[1], x.shape[-1]); when the assertions pass and x has at least 3
dimensions it returns a view of the frequency tensor whose shape is x's
shape with every dimension except axis 1 and the last replaced by 1; but
for a 2-dimensional x with x.shape[1] at least 2 the final `view` fails
with a runtime size error instead of returning that view. -/
theorem c5_broadcast_helper (freqs_cis x : Tensor) :
    (reshape_for_broadcast freqs_cis x = .assertError ↔
      (x.shape.length < 2 ∨
        freqs_cis.shape ≠ [x.shape.getD 1 0, x.shape.getD (x.shape.length - 1) 0])) ∧
    (2 < x.shape.length →
      freqs_cis.shape = [x.shape.getD 1 0, x.shape.getD (x.shape.length - 1) 0] →
      reshape_for_broadcast freqs_cis x = .ok
        ⟨(List.range x.shape.length).map (fun i =>
            if i = 1 ∨ i = x.shape.length - 1 then x.shape.getD i 0 else 1),
          freqs_cis.dtype, freqs_cis.data⟩) ∧
    (x.shape.length = 2 → 2 ≤ x.shape.getD 1 0 →
      freqs_cis.shape = [x.shape.getD 1 0, x.shape.getD 1 0] →
      reshape_for_broadcast freqs_cis x = .runtimeError) := by
  refine ⟨?_, ?_, ?_⟩
  · by_cases h1 : 1 < x.shape.length
    · by_cases h2 : freqs_cis.shape
          = [x.shape.getD 1 0, x.shape.getD (x.shape.length - 1) 0]
      · simp only [reshape_for_broadcast]
        rw [if_neg (not_not_intro ⟨Nat.zero_le 1, h1⟩), if_neg (not_not_intro h2)]
        constructor
        · intro hres
          exfalso
          unfold Tensor.view at hres
          split at hres <;> exact PyResult.noConfusion hres
        · intro hor
          exfalso
          rcases hor with h | h
          · omega
          · exact h h2
      · simp only [reshape_for_broadcast]
        rw [if_neg (not_not_intro ⟨Nat.zero_le 1, h1⟩), if_pos h2]
        exact iff_of_true rfl (Or.inr h2)
    · simp only [reshape_for_broadcast]
      rw [if_pos (fun hc => h1 hc.2)]
      exact iff_of_true rfl (Or.inl (by omega))
  · intro h3 hfr
    simp only [reshape_for_broadcast]
    rw [if_neg (not_not_intro ⟨Nat.zero_le 1, by omega⟩), if_neg (not_not_intro hfr),
      shape_bridge x.shape]
    have hnum : ((List.range x.shape.length).map (fun i =>
        if i = 1 ∨ i = x.shape.length - 1 then x.shape.getD i 0 else 1)).prod
        = freqs_cis.shape.prod := by
      rw [shapeList_prod x.shape.length (fun i => x.shape.getD i 0) (by omega), hfr]
      simp [List.prod_cons]
    unfold Tensor.view
    rw [if_pos hnum]
  · intro h2len hge hfr
    obtain ⟨x0, x1, hx⟩ := List.length_eq_two.mp h2len
    rw [hx] at hge hfr
    simp only [reshape_for_broadcast, hx]
    rw [if_neg (not_not_intro ⟨Nat.zero_le 1, by simp⟩)]
    rw [show ([x0, x1] : List ℕ).length - 1 = 1 from rfl]
    rw [if_neg (not_not_intro hfr)]
    have hsl : ([x0, x1] : List ℕ).enum.map (fun p =>
        if p.1 = 1 ∨ p.1 = 1 then p.2 else 1) = [1, x1] := rfl
    rw [hsl]
    unfold Tensor.view
    have hx1 : (2 : ℕ) ≤ x1 := by simpa using hge
    have hne : ¬ (([1, x1] : List ℕ).prod = freqs_cis.shape.prod) := by
      rw [hfr]
      simp only [List.prod_cons, List.prod_nil, List.getD_cons_succ, List.getD_cons_zero]
      intro hcon
      nlinarith [hcon, hx1]
    rw [if_neg hne]

/-- Counterexample to C5 as stated: for x of shape (2, 2) and a matching
(2, 2) frequency tensor, both assertions pass, yet the function does not
return the described view — the final `view` call fails with a runtime
size error (the target shape (1, 2) has 2 elements but the frequency
tensor has 4). -/
theorem c5_counterexample :
    ¬ ((⟨[2, 2], DType.float32, [0, 0, 0, 0]⟩ : Tensor).shape.length < 2 ∨
        (⟨[2, 2], DType.float32, [0, 0, 0, 0]⟩ : Tensor).shape
          ≠ [(⟨[2, 2], DType.float32, [0, 0, 0, 0]⟩ : Tensor).shape.getD 1 0,
             (⟨[2, 2], DType.float32, [0, 0, 0, 0]⟩ : Tensor).shape.getD
               ((⟨[2, 2], DType.float32, [0, 0, 0, 0]⟩ : Tensor).shape.length - 1) 0]) ∧
      reshape_for_broadcast (⟨[2, 2], DType.float32, [0, 0, 0, 0]⟩ : Tensor)
          (⟨[2, 2], DType.float32, [0, 0, 0, 0]⟩ : Tensor) = PyResult.runtimeError :=
  ⟨by decide, rfl⟩

/-- Witness for the corrected C5 at a rank-4 target tensor: the helper
returns the broadcastable view with shape (1, 2, 1, 3). -/
theorem c5_broadcast_helper_witness :
    reshape_for_broadcast (⟨[2, 3], DType.float32, [0, 0, 0, 0, 0, 0]⟩ : Tensor)
        (⟨[5, 2, 7, 3], DType.float32, []⟩ : Tensor)
      = PyResult.ok ⟨[1, 2, 1, 3], DType.float32, [0, 0, 0, 0, 0, 0]⟩ :=
  (c5_broadcast_helper ⟨[2, 3], DType.float32, [0, 0, 0, 0, 0, 0]⟩
    ⟨[5, 2, 7, 3], DType.float32, []⟩).2.1 (by decide) (by decide)
